import Mathlib

/-!
# mymuduo: the poll(2) multiplexer, the loop-thread pool and the event loop

A shallow embedding of

* `src/mymuduo/net/poller/PollPoller.cc` (`updateChannel`, `removeChannel`,
  `fillActiveChannels`),
* `src/mymuduo/net/EventLoopThreadPool.cc` (`getNextLoop`, `getLoopForHash`),
* `src/EventLoop.cc` (constructor, destructor, `loop`, `updateChannel`,
  `abortNotInLoopThread`, `queueInLoop`, `doPendingFunctors`),

followed by the properties proved about them.

Conventions.  A `Channel*` is an address (`ChannelPtr`), the channel objects
live in a heap `ChannelPtr → Channel`.  A failed `assert` (or the dereference
of a missing map entry) ends the program: the operation returns `none`.
Every operation of `PollPoller` and `EventLoopThreadPool` starts with
`assertInLoopThread()`; the declarations behind that call are not in `src/`,
and the models of those two classes describe the calls made on the owner
loop's thread, where the check returns without touching any state.
-/

namespace mymuduo

/-! ## Data model of the poller -/

/-- Modelled from the spec: `Channel.h` is not part of `src/`.  The fields are
the ones the spec's data model lists and `PollPoller.cc` reads and writes
through `fd()`, `events()`, `set_revents()`, `index()` and `set_index()`. -/
structure Channel where
  fd : Int
  events : Int
  revents : Int
  index : Int
deriving DecidableEq, Repr

/-- Modelled from the spec: the constant of `Channel.h` that `isNoneEvent()`
compares with, the empty interest mask (`// events == 0` at
`PollPoller.cc:129`). -/
def kNoneEvent : Int := 0

/-- Modelled from the spec: `Channel::isNoneEvent()`, "the Channel is NONE". -/
def Channel.isNoneEvent (c : Channel) : Bool := decide (c.events = kNoneEvent)

/-- The `struct pollfd` of `<poll.h>`. -/
structure PollFd where
  fd : Int
  events : Int
  revents : Int
deriving DecidableEq, Repr

/-- An address of a `Channel` object. -/
abbrev ChannelPtr := Nat

/-- The channel objects, by address. -/
abbrev Heap := ChannelPtr → Channel

/-- The entries of a `std::map<int, Channel*>`, in key order. -/
abbrev ChannelMap := List (Int × ChannelPtr)

/-- `channels_.find(k)`: the mapped pointer, `none` for `end()`. -/
def ChannelMap.find : ChannelMap → Int → Option ChannelPtr
  | [], _ => none
  | (k, p) :: rest, key => if key = k then some p else ChannelMap.find rest key

/-- `channels_[k] = p`: insert at the key's place, or overwrite. -/
def ChannelMap.assign : ChannelMap → Int → ChannelPtr → ChannelMap
  | [], key, p => [(key, p)]
  | (k, q) :: rest, key, p =>
    if key < k then (key, p) :: (k, q) :: rest
    else if key = k then (key, p) :: rest
    else (k, q) :: ChannelMap.assign rest key p

/-- `channels_.erase(k)`: the map without the key. -/
def ChannelMap.erase (m : ChannelMap) (key : Int) : ChannelMap :=
  m.filter (fun e => decide (e.1 ≠ key))

/-- The value `channels_.erase(k)` returns: the number of entries removed. -/
def ChannelMap.eraseCount (m : ChannelMap) (key : Int) : Nat :=
  (m.filter (fun e => decide (e.1 = key))).length

/-- `static_cast<short>(x)` for an `int`: reduction to 16 bits, two's complement. -/
def toShort (x : Int) : Int := (x + 32768) % 65536 - 32768

/-- The two data members of `PollPoller`. -/
structure PollPoller where
  pollfds_ : List PollFd
  channels_ : ChannelMap
deriving DecidableEq, Repr

/-- The state `PollPoller::PollPoller` leaves: no slot, no map entry. -/
def PollPoller.empty : PollPoller := { pollfds_ := [], channels_ := [] }

/-! ## `PollPoller::updateChannel`, `PollPoller::removeChannel` -/

/-- `PollPoller::updateChannel(channel)` (`PollPoller.cc:97-135`). -/
def PollPoller.updateChannel (h : Heap) (s : PollPoller) (channel : ChannelPtr) :
    Option (Heap × PollPoller) :=
  let ch := h channel
  if ch.index < 0 then
    -- a new Channel
    if (s.channels_.find ch.fd).isSome then none
    else
      let pfd : PollFd := { fd := ch.fd, events := toShort ch.events, revents := 0 }
      let pollfds := s.pollfds_ ++ [pfd]
      let idx : Int := (pollfds.length : Int) - 1
      some (Function.update h channel { ch with index := idx },
            { pollfds_ := pollfds, channels_ := s.channels_.assign pfd.fd channel })
  else
    -- a Channel that is already there
    match s.channels_.find ch.fd with
    | none => none
    | some p =>
      if p ≠ channel then none
      else
        let idx := ch.index
        if ¬ (0 ≤ idx ∧ idx < (s.pollfds_.length : Int)) then none
        else
          match s.pollfds_[idx.toNat]? with
          | none => none
          | some pfd =>
            if ¬ (pfd.fd = ch.fd ∨ pfd.fd = -ch.fd - 1) then none
            else
              let pfd1 : PollFd := { pfd with events := toShort ch.events, revents := 0 }
              let pfd2 : PollFd :=
                if ch.isNoneEvent then { pfd1 with fd := -ch.fd - 1 } else pfd1
              some (h, { s with pollfds_ := s.pollfds_.set idx.toNat pfd2 })

/-- `PollPoller::removeChannel(channel)` (`PollPoller.cc:137-172`). -/
def PollPoller.removeChannel (h : Heap) (s : PollPoller) (channel : ChannelPtr) :
    Option (Heap × PollPoller) :=
  let ch := h channel
  match s.channels_.find ch.fd with
  | none => none
  | some p =>
    if p ≠ channel then none
    else if ¬ ch.isNoneEvent then none
    else
      let idx := ch.index
      if ¬ (0 ≤ idx ∧ idx < (s.pollfds_.length : Int)) then none
      else
        match s.pollfds_[idx.toNat]? with
        | none => none
        | some pfd =>
          if ¬ (pfd.fd = -ch.fd - 1 ∧ pfd.events = ch.events) then none
          else
            let n := s.channels_.eraseCount ch.fd
            let channels := s.channels_.erase ch.fd
            if n ≠ 1 then none
            else if idx.toNat = s.pollfds_.length - 1 then
              some (h, { pollfds_ := s.pollfds_.dropLast, channels_ := channels })
            else
              match s.pollfds_.getLast? with
              | none => none
              | some back =>
                let channelAdEnd : Int := if back.fd < 0 then -back.fd - 1 else back.fd
                -- iter_swap(begin() + idx, end() - 1)
                let swapped := (s.pollfds_.set idx.toNat back).set (s.pollfds_.length - 1) pfd
                -- channels_[channelAdEnd]->set_index(idx)
                match channels.find channelAdEnd with
                | none => none
                | some q =>
                  some (Function.update h q { h q with index := idx },
                        { pollfds_ := swapped.dropLast, channels_ := channels })

/-! ## `PollPoller::fillActiveChannels` -/

/-- The loop of `PollPoller::fillActiveChannels` (`PollPoller.cc:73-90`) over
the slots still to visit. -/
def PollPoller.fillLoop (channels : ChannelMap) :
    List PollFd → Int → Heap → List ChannelPtr → Option (Heap × List ChannelPtr)
  | [], _, h, active => some (h, active)
  | pfd :: rest, numEvents, h, active =>
    if 0 < numEvents then
      if 0 < pfd.revents then
        match channels.find pfd.fd with
        | none => none
        | some p =>
          if (h p).fd ≠ pfd.fd then none
          else
            PollPoller.fillLoop channels rest (numEvents - 1)
              (Function.update h p { h p with revents := pfd.revents }) (active ++ [p])
      else PollPoller.fillLoop channels rest numEvents h active
    else some (h, active)

/-- `PollPoller::fillActiveChannels(numEvents, activeChannels)`. -/
def PollPoller.fillActiveChannels (h : Heap) (s : PollPoller) (numEvents : Int)
    (activeChannels : List ChannelPtr) : Option (Heap × List ChannelPtr) :=
  PollPoller.fillLoop s.channels_ s.pollfds_ numEvents h activeChannels

/-- A heap of channels that were never registered: `fd`, no interest, index -1. -/
def freshHeap (fd : Int) (events : Int) : Heap :=
  fun _ => { fd := fd, events := events, revents := 0, index := -1 }

/-- `Channel::set_events`-style change of the interest mask of one channel. -/
def setEvents (h : Heap) (c : ChannelPtr) (events : Int) : Heap :=
  Function.update h c { h c with events := events }

/-- The interest mask `Channel::enableReading()` sets: `POLLIN | POLLPRI`. -/
def kReadEvent : Int := 3

/-- The calls a higher layer makes between two polls: `Channel::update()`,
`Channel::remove()` and a change of the interest mask of a channel. -/
inductive PollerOp where
  | update (c : ChannelPtr)
  | remove (c : ChannelPtr)
  | setEvents (c : ChannelPtr) (events : Int)

/-- One call on the heap and the poller. -/
def PollPoller.step (st : Heap × PollPoller) : PollerOp → Option (Heap × PollPoller)
  | .update c => PollPoller.updateChannel st.1 st.2 c
  | .remove c => PollPoller.removeChannel st.1 st.2 c
  | .setEvents c e => some (setEvents st.1 c e, st.2)

/-- A sequence of calls, stopping at the first failed assertion. -/
def PollPoller.run : List PollerOp → Heap × PollPoller → Option (Heap × PollPoller)
  | [], st => some st
  | op :: ops, st => (PollPoller.step st op).bind (PollPoller.run ops)

/-- The fd a slot stands for: `x` itself, or `-x - 1` when the slot is marked. -/
def decodeFd (x : Int) : Int := if x < 0 then -x - 1 else x

/-- The registration invariant of the poller: the map has one entry per key,
every channel the map holds is held under its own fd (never negative) and has
its slot at `index`, storing `fd` or `-fd - 1`, and every slot is the slot of
the channel the map holds under the fd the slot stands for. -/
def RegistrationInv (h : Heap) (s : PollPoller) : Prop :=
  (s.channels_.map Prod.fst).Nodup ∧
  (∀ k p, s.channels_.find k = some p →
    (h p).fd = k ∧ 0 ≤ k ∧ 0 ≤ (h p).index ∧
      ∃ pfd, s.pollfds_[(h p).index.toNat]? = some pfd ∧ (pfd.fd = k ∨ pfd.fd = -k - 1)) ∧
  (∀ (j : Nat) (pfd : PollFd), s.pollfds_[j]? = some pfd →
    ∃ p, s.channels_.find (decodeFd pfd.fd) = some p ∧ (h p).index = (j : Int))

/-- The slots `fillActiveChannels` reports: the first `numEvents` ones, in slot
order, among those whose `revents` is positive. -/
def reportedSlots (s : PollPoller) (numEvents : Int) : List PollFd :=
  (s.pollfds_.filter (fun pfd => decide (0 < pfd.revents))).take numEvents.toNat

/-! ## `EventLoopThreadPool` -/

/-- An address of an `EventLoop` object. -/
abbrev EventLoopPtr := Nat

/-- The data members of `EventLoopThreadPool` that dispatch reads and writes.
`next_` is an `int` the code keeps between 0 and `loops_.size()`. -/
structure EventLoopThreadPool where
  baseLoop_ : EventLoopPtr
  started_ : Bool
  numThreads_ : Nat
  next_ : Nat
  loops_ : List EventLoopPtr
deriving DecidableEq, Repr

/-- `EventLoopThreadPool::EventLoopThreadPool(baseLoop, nameArg)`. -/
def EventLoopThreadPool.create (baseLoop : EventLoopPtr) : EventLoopThreadPool :=
  { baseLoop_ := baseLoop, started_ := false, numThreads_ := 0, next_ := 0, loops_ := [] }

/-- `EventLoopThreadPool::start(cb)`, given the loop that the `i`-th
`EventLoopThread::startLoop()` returns. -/
def EventLoopThreadPool.start (p : EventLoopThreadPool) (startLoop : Nat → EventLoopPtr) :
    Option EventLoopThreadPool :=
  if p.started_ then none
  else some { p with started_ := true,
                     loops_ := p.loops_ ++ (List.range p.numThreads_).map startLoop }

/-- `EventLoopThreadPool::getNextLoop()` (`EventLoopThreadPool.cc:47-64`);
`none` for a failed `assert(started_)` or an index outside `loops_`. -/
def EventLoopThreadPool.getNextLoop (p : EventLoopThreadPool) :
    Option (EventLoopPtr × EventLoopThreadPool) :=
  if ¬ p.started_ then none
  else if p.loops_.isEmpty then some (p.baseLoop_, p)
  else
    match p.loops_[p.next_]? with
    | none => none
    | some loop =>
      let next := p.next_ + 1
      some (loop, { p with next_ := if p.loops_.length ≤ next then 0 else next })

/-- `EventLoopThreadPool::getLoopForHash(hashCode)` (`EventLoopThreadPool.cc:66-76`).
The index `hashCode % loops_.size()` is always inside `loops_`. -/
def EventLoopThreadPool.getLoopForHash (p : EventLoopThreadPool) (hashCode : Nat) :
    EventLoopPtr × EventLoopThreadPool :=
  if p.loops_.isEmpty then (p.baseLoop_, p)
  else (p.loops_.getD (hashCode % p.loops_.length) p.baseLoop_, p)

/-- The loops `k` successive `getNextLoop()` calls return, and the pool after them. -/
def EventLoopThreadPool.getNextLoops :
    Nat → EventLoopThreadPool → Option (List EventLoopPtr × EventLoopThreadPool)
  | 0, p => some ([], p)
  | k + 1, p =>
    match p.getNextLoop with
    | none => none
    | some (loop, p1) =>
      match EventLoopThreadPool.getNextLoops k p1 with
      | none => none
      | some (rest, p2) => some (loop :: rest, p2)

/-! ## `EventLoop`: the pending-functor queue -/

/-- A `Functor` handed to `queueInLoop`: a name, and the functors its body
hands to `queueInLoop` of the same loop, in order, when it is called. -/
inductive Functor where
  | mk (id : Nat) (queues : List Functor)

/-- The name of a functor. -/
def Functor.id : Functor → Nat
  | .mk i _ => i

/-- The functors a functor enqueues when it is called. -/
def Functor.queues : Functor → List Functor
  | .mk _ qs => qs

/-- The data members of `EventLoop` (`src/EventLoop.cc`) that the modelled
member functions read and write. -/
structure EventLoop where
  looping_ : Bool
  quit_ : Bool
  threadId_ : Nat
  callingPendingFunctors_ : Bool
  pendingFunctors_ : List Functor

/-- Modelled from the spec: `EventLoop::isInLoopThread()` of `EventLoop.h`, which
is not part of `src/`: the caller is the thread that created the loop. -/
def EventLoop.isInLoopThread (l : EventLoop) (tid : Nat) : Bool := decide (l.threadId_ = tid)

/-- An `EventLoop` together with what an observer records: every functor handed
to `queueInLoop`, every functor called, both in call order, and the number of
`wakeup()` calls. -/
structure LoopRun where
  loop : EventLoop
  enqueued : List Functor
  executed : List Functor
  wakeups : Nat

/-- `EventLoop::queueInLoop(cb)` called from thread `tid` (`EventLoop.cc:132-144`). -/
def EventLoop.queueInLoop (tid : Nat) (cb : Functor) (r : LoopRun) : LoopRun :=
  let loop1 := { r.loop with pendingFunctors_ := r.loop.pendingFunctors_ ++ [cb] }
  { loop := loop1
    enqueued := r.enqueued ++ [cb]
    executed := r.executed
    wakeups := if ! loop1.isInLoopThread tid || loop1.callingPendingFunctors_
               then r.wakeups + 1 else r.wakeups }

/-- The call `functors[i]()` made by thread `tid`: the functor runs, and its body
calls `queueInLoop` for each functor it enqueues. -/
def EventLoop.callFunctor (tid : Nat) (r : LoopRun) (f : Functor) : LoopRun :=
  f.queues.foldl (fun acc g => EventLoop.queueInLoop tid g acc)
    { r with executed := r.executed ++ [f] }

/-- `EventLoop::doPendingFunctors()` run by thread `tid` (`EventLoop.cc:152-169`). -/
def EventLoop.doPendingFunctors (tid : Nat) (r : LoopRun) : LoopRun :=
  let functors := r.loop.pendingFunctors_
  let r1 : LoopRun :=
    { r with loop := { r.loop with callingPendingFunctors_ := true, pendingFunctors_ := [] } }
  let r2 := functors.foldl (EventLoop.callFunctor tid) r1
  { r2 with loop := { r2.loop with callingPendingFunctors_ := false } }

/-- What happens to the queue of a loop: a thread enqueues a functor, or the
loop thread drains the queue. -/
inductive QueueOp where
  | queue (tid : Nat) (cb : Functor)
  | drain

/-- A sequence of enqueues and drains; the drains run on the loop's thread. -/
def EventLoop.runQueueOps (r : LoopRun) : List QueueOp → LoopRun
  | [] => r
  | .queue tid cb :: ops => EventLoop.runQueueOps (EventLoop.queueInLoop tid cb r) ops
  | .drain :: ops =>
    EventLoop.runQueueOps (EventLoop.doPendingFunctors r.loop.threadId_ r) ops

/-- A loop created by thread `tid`, nothing pending, nothing recorded. -/
def LoopRun.init (tid : Nat) : LoopRun :=
  { loop := { looping_ := false, quit_ := false, threadId_ := tid,
              callingPendingFunctors_ := false, pendingFunctors_ := [] }
    enqueued := [], executed := [], wakeups := 0 }

/-! ## `EventLoop`: thread affinity and the per-thread slot -/

/-- How a call ends: it returns, the program is terminated (`exit`, a failed
`assert`), or the call is not one a program can make (destroying an object
that is not alive). -/
inductive Outcome (α : Type) where
  | returned (a : α)
  | terminated
  | undefined

/-- What a call leaves behind outside the loop object: the lines printed and
the channels forwarded to `Poller::updateChannel`. -/
structure Effects where
  printed : List String
  forwarded : List ChannelPtr
deriving DecidableEq, Repr

/-- `EventLoop::abortNotInLoopThread()` called by thread `tid`
(`EventLoop.cc:87-92`): one `printf`, then the function returns. -/
def EventLoop.abortNotInLoopThread (l : EventLoop) (tid : Nat) (e : Effects) : Outcome Effects :=
  .returned { e with printed := e.printed ++
    ["EventLoop::abortNotInLoopThread - EventLoop was created in threadId_ = " ++
      toString l.threadId_ ++ " , but current thread id = " ++ toString tid ++ "\n"] }

/-- Modelled from the spec: `EventLoop::assertInLoopThread()` of `EventLoop.h`,
which is not part of `src/`.  In the spec's words it "is the precondition for
every mutating operation on the loop and on any Channel it owns.  Violation is
fatal": a call from the loop's own thread passes, a call from any other thread
ends the program. -/
def EventLoop.assertInLoopThread (l : EventLoop) (tid : Nat) (e : Effects) : Outcome Effects :=
  if l.isInLoopThread tid then .returned e else .terminated

/-- `EventLoop::updateChannel(channel)` (`EventLoop.cc:80-85`) of the loop at
address `this`, called by thread `tid` for a channel owned by `ownerLoop`. -/
def EventLoop.updateChannel (this : EventLoopPtr) (l : EventLoop) (tid : Nat)
    (ownerLoop : EventLoopPtr) (channel : ChannelPtr) (e : Effects) : Outcome Effects :=
  if ownerLoop ≠ this then .terminated
  else
    match l.assertInLoopThread tid e with
    | .returned e1 => .returned { e1 with forwarded := e1.forwarded ++ [channel] }
    | .terminated => .terminated
    | .undefined => .undefined

/-- The process as the constructor and destructor of `EventLoop` see it: the
slot `t_loopInThisThread` of every thread (`none` is the null pointer), the
`EventLoop` objects alive, by address, and the next address to hand out. -/
structure Process where
  t_loopInThisThread : Nat → Option EventLoopPtr
  alive : List (EventLoopPtr × EventLoop)
  nextAddr : EventLoopPtr

/-- The process at start: every slot null, no loop. -/
def Process.init : Process :=
  { t_loopInThisThread := fun _ => none, alive := [], nextAddr := 1 }

/-- `EventLoop::EventLoop()` run by thread `tid` at a fresh address
(`EventLoop.cc:20-38`); `exit(1)` ends the program.  The lines the constructor
prints are not recorded. -/
def EventLoop.construct (w : Process) (tid : Nat) : Outcome Process :=
  let this := w.nextAddr
  let l : EventLoop := { looping_ := false, quit_ := false, threadId_ := tid,
                         callingPendingFunctors_ := false, pendingFunctors_ := [] }
  match w.t_loopInThisThread tid with
  | some _ => .terminated
  | none =>
    .returned { t_loopInThisThread := Function.update w.t_loopInThisThread tid (some this)
                alive := w.alive ++ [(this, l)]
                nextAddr := this + 1 }

/-- `EventLoop::~EventLoop()` of the loop at address `this`, run by thread `tid`
(`EventLoop.cc:40-44`). -/
def EventLoop.destroy (w : Process) (tid : Nat) (this : EventLoopPtr) : Outcome Process :=
  match w.alive.find? (fun a => decide (a.1 = this)) with
  | none => .undefined
  | some (_, l) =>
    if l.looping_ then .terminated
    else
      .returned { w with t_loopInThisThread := Function.update w.t_loopInThisThread tid none
                         alive := w.alive.filter (fun a => decide (a.1 ≠ this)) }

/-- `EventLoop::getEventLoopOfCurrentThread()` called by thread `tid`. -/
def EventLoop.getEventLoopOfCurrentThread (w : Process) (tid : Nat) : Option EventLoopPtr :=
  w.t_loopInThisThread tid

/-- A constructor or destructor call, with the thread that makes it. -/
inductive LifeCall where
  | construct (tid : Nat)
  | destroy (tid : Nat) (this : EventLoopPtr)

/-- A sequence of constructor and destructor calls. -/
def Process.run : List LifeCall → Process → Outcome Process
  | [], w => .returned w
  | .construct tid :: cs, w =>
    match EventLoop.construct w tid with
    | .returned w1 => Process.run cs w1
    | .terminated => .terminated
    | .undefined => .undefined
  | .destroy tid this :: cs, w =>
    match EventLoop.destroy w tid this with
    | .returned w1 => Process.run cs w1
    | .terminated => .terminated
    | .undefined => .undefined

/-- The thread that created the loop at address `this`, if that loop is alive. -/
def Process.ownerOf (w : Process) (this : EventLoopPtr) : Option Nat :=
  (w.alive.find? (fun a => decide (a.1 = this))).map (fun a => a.2.threadId_)

/-- Every destructor call of the sequence is made by the thread that created
the loop it destroys. -/
def Process.destroysOnOwnThread : List LifeCall → Process → Prop
  | [], _ => True
  | .construct tid :: cs, w =>
    match EventLoop.construct w tid with
    | .returned w1 => Process.destroysOnOwnThread cs w1
    | _ => True
  | .destroy tid this :: cs, w =>
    w.ownerOf this = some tid ∧
    match EventLoop.destroy w tid this with
    | .returned w1 => Process.destroysOnOwnThread cs w1
    | _ => True

/-- The loops alive that thread `tid` created. -/
def Process.loopsOf (w : Process) (tid : Nat) : List EventLoopPtr :=
  (w.alive.filter (fun a => decide (a.2.threadId_ = tid))).map Prod.fst

/-- The write `channel->set_revents(pfd->revents)` for a slot and its channel. -/
def setRevents (h : Heap) (z : PollFd × ChannelPtr) : Heap :=
  Function.update h z.2 { h z.2 with revents := z.1.revents }

/-- Among slots paired with their channels, the first `numEvents` pairs whose
slot has positive `revents`. -/
def reportedPairs (zs : List (PollFd × ChannelPtr)) (numEvents : Int) :
    List (PollFd × ChannelPtr) :=
  (zs.filter (fun z => decide (0 < z.1.revents))).take numEvents.toNat

/-- Two registered channels, fd 3 at slot 0 and fd 5 at slot 1, both reading. -/
def twoChannelsHeap : Heap :=
  fun p => if p = 0 then { fd := 3, events := 3, revents := 0, index := 0 }
           else { fd := 5, events := 3, revents := 0, index := 1 }

/-- The poller of `twoChannelsHeap` after a poll that reported both fds. -/
def twoChannelsPoller : PollPoller :=
  { pollfds_ := [{ fd := 3, events := 3, revents := 1 }, { fd := 5, events := 3, revents := 4 }],
    channels_ := [(3, 0), (5, 1)] }

/-- One registered channel, fd 3, with no interest: its slot is marked `-4`. -/
def markedHeap : Heap :=
  fun _ => { fd := 3, events := 0, revents := 0, index := 0 }

/-- The poller of `markedHeap`, the marked slot carrying a positive `revents`. -/
def markedPoller : PollPoller :=
  { pollfds_ := [{ fd := -4, events := 0, revents := 1 }], channels_ := [(3, 0)] }

/-- A started pool of three worker loops at addresses 10, 11, 12; base loop 1. -/
def poolOfThree : EventLoopThreadPool :=
  { baseLoop_ := 1, started_ := true, numThreads_ := 3, next_ := 0, loops_ := [10, 11, 12] }

/-- A started pool of four worker loops at addresses 10 to 13; base loop 1. -/
def poolOfFour : EventLoopThreadPool :=
  { baseLoop_ := 1, started_ := true, numThreads_ := 4, next_ := 0, loops_ := [10, 11, 12, 13] }

/-- The invariant behind "one loop per thread": the loops alive have distinct
addresses, all below the next address to hand out, and the slot of a thread
holds an address exactly when a loop alive at that address was created by
that thread. -/
def Process.SingleLoopInv (w : Process) : Prop :=
  (w.alive.map Prod.fst).Nodup ∧
  (∀ a ∈ w.alive.map Prod.fst, a < w.nextAddr) ∧
  ∀ tid a, w.t_loopInThisThread tid = some a ↔ ∃ l, (a, l) ∈ w.alive ∧ l.threadId_ = tid

/-- Nothing printed, nothing forwarded. -/
def Effects.none : Effects := { printed := [], forwarded := [] }

/-- The process a returning call leaves, if the call returns. -/
def Outcome.toOption {α : Type} : Outcome α → Option α
  | .returned a => some a
  | _ => none

/-- Thread 1 creates a loop, thread 2 creates a loop, thread 1 destroys its own
loop and creates another one. -/
def ownThreadCalls : List LifeCall :=
  [.construct 1, .construct 2, .destroy 1 1, .construct 1]

/-- The process after `ownThreadCalls`. -/
def ownThreadProcess : Process :=
  ((Process.run ownThreadCalls Process.init).toOption).getD Process.init

/-- Thread 2 creates a loop (address 1), thread 1 creates a loop (address 2),
thread 2 destroys the loop of thread 1 and then creates a second loop
(address 3). -/
def crossThreadCalls : List LifeCall :=
  [.construct 2, .construct 1, .destroy 2 2, .construct 2]

/-- The channel a slot belongs to: the one the map holds under the fd the slot
stands for. -/
def slotOwner (m : ChannelMap) (pfd : PollFd) : ChannelPtr :=
  (m.find (decodeFd pfd.fd)).getD 0

/-- What a run leaves of the poller and of the channel at address 0. -/
def observe (r : Option (Heap × PollPoller)) : Option (PollPoller × Channel) :=
  r.map (fun st => (st.2, st.1 0))

/-! ## Properties of `PollPoller::fillActiveChannels` -/

theorem fillLoop_pairs (m : ChannelMap) (h0 : Heap) (l : List PollFd) (ps : List ChannelPtr)
    (hrel : List.Forall₂
      (fun pfd p => 0 < pfd.revents → m.find pfd.fd = some p ∧ (h0 p).fd = pfd.fd) l ps) :
    ∀ (n : Int) (h : Heap) (acc : List ChannelPtr), (∀ p, (h p).fd = (h0 p).fd) →
      PollPoller.fillLoop m l n h acc =
        some ((reportedPairs (l.zip ps) n).foldl setRevents h,
              acc ++ (reportedPairs (l.zip ps) n).map Prod.snd) := by
  induction hrel with
  | nil => intro n h acc _; simp [PollPoller.fillLoop, reportedPairs]
  | @cons pfd p rest ps1 hhead _ ih =>
    intro n h acc hfd
    by_cases hn : 0 < n
    · by_cases hr : 0 < pfd.revents
      · obtain ⟨hfind, hfd0⟩ := hhead hr
        have hfdp : (h p).fd = pfd.fd := by rw [hfd p, hfd0]
        have hh : ∀ q, ((setRevents h (pfd, p)) q).fd = (h0 q).fd := by
          intro q
          by_cases hq : q = p
          · subst hq; simp [setRevents, hfd]
          · simp [setRevents, Function.update_noteq hq, hfd]
        have hstep := ih (n - 1) (setRevents h (pfd, p)) (acc ++ [p]) hh
        have htake : n.toNat = (n - 1).toNat + 1 := by omega
        rw [PollPoller.fillLoop, if_pos hn, if_pos hr]
        simp only [hfind]
        rw [if_neg (not_not.mpr hfdp)]
        show PollPoller.fillLoop m rest (n - 1) (setRevents h (pfd, p)) (acc ++ [p]) = _
        rw [hstep]
        have hfilter : List.filter (fun z => decide (0 < z.1.revents)) ((pfd :: rest).zip (p :: ps1))
            = (pfd, p) :: List.filter (fun z => decide (0 < z.1.revents)) (rest.zip ps1) := by
          simp [hr]
        simp only [reportedPairs, hfilter]
        rw [htake, List.take_succ_cons]
        simp
      · simp only [PollPoller.fillLoop, hn, hr, if_true, if_false]
        rw [ih n h acc hfd]
        simp [reportedPairs, hr]
    · have h0n : n.toNat = 0 := by omega
      simp [PollPoller.fillLoop, hn, reportedPairs, h0n]

theorem slotOwner_nodup (h : Heap) (s : PollPoller) (hinv : RegistrationInv h s) :
    (s.pollfds_.map (slotOwner s.channels_)).Nodup := by
  obtain ⟨_, _, hslot⟩ := hinv
  rw [List.nodup_iff_getElem?_ne_getElem?]
  intro i j hij hj heq
  rw [List.length_map] at hj
  have hi : i < s.pollfds_.length := by omega
  rw [List.getElem?_map, List.getElem?_map, List.getElem?_eq_getElem hi,
    List.getElem?_eq_getElem hj] at heq
  simp only [Option.map_some', Option.some.injEq] at heq
  obtain ⟨p, hp, hpi⟩ := hslot i _ (List.getElem?_eq_getElem hi)
  obtain ⟨q, hq, hqj⟩ := hslot j _ (List.getElem?_eq_getElem hj)
  simp only [slotOwner, hp, hq, Option.getD_some] at heq
  subst heq
  rw [hpi] at hqj
  omega

theorem slotOwner_found (h : Heap) (s : PollPoller) (hinv : RegistrationInv h s)
    (hkernel : ∀ pfd ∈ s.pollfds_, pfd.fd < 0 → pfd.revents ≤ 0) :
    List.Forall₂
      (fun pfd p => 0 < pfd.revents → s.channels_.find pfd.fd = some p ∧ (h p).fd = pfd.fd)
      s.pollfds_ (s.pollfds_.map (slotOwner s.channels_)) := by
  obtain ⟨_, hreg, hslot⟩ := hinv
  rw [List.forall₂_map_right_iff, List.forall₂_same]
  intro pfd hmem hpos
  have hfd : ¬ pfd.fd < 0 := fun hneg => by have := hkernel pfd hmem hneg; omega
  have hdec : decodeFd pfd.fd = pfd.fd := by simp [decodeFd, hfd]
  obtain ⟨j, hj⟩ := List.mem_iff_getElem?.mp hmem
  obtain ⟨p, hp, _⟩ := hslot j pfd hj
  rw [hdec] at hp
  have hown : slotOwner s.channels_ pfd = p := by simp [slotOwner, hdec, hp]
  rw [hown]
  exact ⟨hp, (hreg _ _ hp).1⟩

theorem foldl_setRevents_of_not_mem (zs : List (PollFd × ChannelPtr)) :
    ∀ (h : Heap) (p : ChannelPtr), p ∉ zs.map Prod.snd → (zs.foldl setRevents h) p = h p := by
  induction zs with
  | nil => intro h p _; rfl
  | cons z rest ih =>
    intro h p hp
    simp only [List.map_cons, List.mem_cons, not_or] at hp
    rw [List.foldl_cons, ih _ _ hp.2]
    simp [setRevents, Function.update_noteq hp.1]

theorem foldl_setRevents_of_mem (zs : List (PollFd × ChannelPtr)) :
    ∀ (h : Heap), (zs.map Prod.snd).Nodup → ∀ z ∈ zs,
      (zs.foldl setRevents h) z.2 = { h z.2 with revents := z.1.revents } := by
  induction zs with
  | nil => intro h _ z hz; simp at hz
  | cons z0 rest ih =>
    intro h hnd z hz
    simp only [List.map_cons, List.nodup_cons] at hnd
    rw [List.foldl_cons]
    rcases List.mem_cons.mp hz with rfl | hz1
    · rw [foldl_setRevents_of_not_mem rest _ _ hnd.1]
      simp [setRevents]
    · have hne : z.2 ≠ z0.2 := by
        intro heq
        exact hnd.1 (heq ▸ List.mem_map_of_mem Prod.snd hz1)
      rw [ih _ hnd.2 z hz1]
      simp [setRevents, Function.update_noteq hne]

theorem reportedPairs_fst (l : List PollFd) (ps : List ChannelPtr) (hlen : l.length ≤ ps.length)
    (n : Int) :
    (reportedPairs (l.zip ps) n).map Prod.fst
      = (l.filter (fun pfd => decide (0 < pfd.revents))).take n.toNat := by
  have hfilter : l.filter (fun pfd => decide (0 < pfd.revents))
      = ((l.zip ps).filter (fun z => decide (0 < z.1.revents))).map Prod.fst := by
    conv_lhs => rw [← List.map_fst_zip l ps hlen]
    rw [List.filter_map]
    rfl
  rw [reportedPairs, List.map_take, hfilter]

theorem reportedPairs_snd_sublist (l : List PollFd) (ps : List ChannelPtr)
    (hlen : ps.length ≤ l.length) (n : Int) :
    List.Sublist ((reportedPairs (l.zip ps) n).map Prod.snd) ps := by
  have hsub : List.Sublist (reportedPairs (l.zip ps) n) (l.zip ps) :=
    (List.take_sublist _ _).trans (List.filter_sublist _)
  have := hsub.map Prod.snd
  rwa [List.map_snd_zip l ps hlen] at this

theorem twoChannels_inv : RegistrationInv twoChannelsHeap twoChannelsPoller := by
  refine ⟨by decide, ?_, ?_⟩
  · intro k p hfind
    simp only [twoChannelsPoller, ChannelMap.find] at hfind
    split at hfind
    · cases hfind; subst k; decide
    · split at hfind
      · cases hfind; subst k; decide
      · cases hfind
  · intro j pfd hj
    match j, hj with
    | 0, hj => cases hj; exact ⟨0, by decide, by decide⟩
    | 1, hj => cases hj; exact ⟨1, by decide, by decide⟩
    | j + 2, hj => simp [twoChannelsPoller] at hj

theorem marked_inv : RegistrationInv markedHeap markedPoller := by
  refine ⟨by decide, ?_, ?_⟩
  · intro k p hfind
    simp only [markedPoller, ChannelMap.find] at hfind
    split at hfind
    · cases hfind; subst k; decide
    · cases hfind
  · intro j pfd hj
    match j, hj with
    | 0, hj => cases hj; exact ⟨0, by decide, by decide⟩
    | j + 1, hj => simp [markedPoller] at hj

/-- C7 (as amended): in every state that satisfies the registration invariant,
for every `revents` assignment that leaves `revents ≤ 0` in the slots whose
stored fd is negative (the slots poll(2) ignores) and for every `numEvents`,
`fillActiveChannels` returns; the list it appends to an empty `activeChannels`
has no channel twice and holds, in slot order, the channels the map holds for
the first `numEvents` slots with positive `revents`, each channel with its
`revents` set to that of its slot; no other channel is written. -/
theorem fillActiveChannels_no_duplicate (h : Heap) (s : PollPoller) (numEvents : Int)
    (hinv : RegistrationInv h s)
    (hkernel : ∀ pfd ∈ s.pollfds_, pfd.fd < 0 → pfd.revents ≤ 0) :
    ∃ h1 active, PollPoller.fillActiveChannels h s numEvents [] = some (h1, active) ∧
      active.Nodup ∧
      active.map some = (reportedSlots s numEvents).map (fun pfd => s.channels_.find pfd.fd) ∧
      (∀ x ∈ List.zip active (reportedSlots s numEvents),
        h1 x.1 = { h x.1 with revents := x.2.revents }) ∧
      (∀ p, p ∉ active → h1 p = h p) := by
  have hrel := slotOwner_found h s hinv hkernel
  have hnd := slotOwner_nodup h s hinv
  have hlen : (s.pollfds_.map (slotOwner s.channels_)).length = s.pollfds_.length :=
    List.length_map _ _
  have hrun := fillLoop_pairs s.channels_ h s.pollfds_ _ hrel numEvents h [] (fun _ => rfl)
  have hsub := reportedPairs_snd_sublist s.pollfds_ _ (le_of_eq hlen) numEvents
  have hfst := reportedPairs_fst s.pollfds_ _ (le_of_eq hlen.symm) numEvents
  have hnd1 := hsub.nodup hnd
  generalize hzs : reportedPairs (s.pollfds_.zip (s.pollfds_.map (slotOwner s.channels_)))
    numEvents = zs at hrun hsub hfst hnd1
  have hzmem : ∀ z ∈ zs, (z.1, z.2) ∈ s.pollfds_.zip (s.pollfds_.map (slotOwner s.channels_)) ∧
      0 < z.1.revents := by
    intro z hz
    rw [← hzs] at hz
    have hz1 := List.mem_of_mem_take hz
    rw [List.mem_filter] at hz1
    exact ⟨hz1.1, by simpa using hz1.2⟩
  refine ⟨zs.foldl setRevents h, zs.map Prod.snd, ?_, hnd1, ?_, ?_, ?_⟩
  · simpa [PollPoller.fillActiveChannels] using hrun
  · rw [reportedSlots, ← hfst, List.map_map, List.map_map]
    apply List.map_congr_left
    intro z hz
    obtain ⟨hmem, hpos⟩ := hzmem z hz
    exact ((List.forall₂_zip hrel hmem) hpos).1.symm
  · intro x hx
    rw [reportedSlots, ← hfst, List.zip_map'] at hx
    obtain ⟨z, hz, rfl⟩ := List.mem_map.mp hx
    exact foldl_setRevents_of_mem zs h hnd1 z hz
  · intro p hp
    exact foldl_setRevents_of_not_mem zs h p hp

/-- C7, an instance: with fd 3 at slot 0 and fd 5 at slot 1, both reported, the
hypotheses hold and the poll of two events returns both channels once. -/
theorem fillActiveChannels_no_duplicate_witness :
    RegistrationInv twoChannelsHeap twoChannelsPoller ∧
    (∀ pfd ∈ twoChannelsPoller.pollfds_, pfd.fd < 0 → pfd.revents ≤ 0) ∧
    (∃ h1 active,
      PollPoller.fillActiveChannels twoChannelsHeap twoChannelsPoller 2 [] = some (h1, active) ∧
      active.Nodup ∧
      active.map some
        = (reportedSlots twoChannelsPoller 2).map (fun pfd => twoChannelsPoller.channels_.find pfd.fd) ∧
      (∀ x ∈ List.zip active (reportedSlots twoChannelsPoller 2),
        h1 x.1 = { twoChannelsHeap x.1 with revents := x.2.revents }) ∧
      (∀ p, p ∉ active → h1 p = twoChannelsHeap p)) ∧
    (PollPoller.fillActiveChannels twoChannelsHeap twoChannelsPoller 2 []).map
      (fun r => (r.2, (r.1 0).revents, (r.1 1).revents)) = some ([0, 1], 1, 4) :=
  ⟨twoChannels_inv, by decide,
    fillActiveChannels_no_duplicate twoChannelsHeap twoChannelsPoller 2 twoChannels_inv (by decide),
    by decide⟩

/-- C7 as stated fails: the state with fd 3 registered and marked (`-4` in its
slot) satisfies the registration invariant, and with a positive `revents` in
that slot `fillActiveChannels` stops at the `assert` after `channels_.find(-4)`
instead of producing a list. -/
theorem fillActiveChannels_marked_slot_aborts :
    RegistrationInv markedHeap markedPoller ∧
    PollPoller.fillActiveChannels markedHeap markedPoller 1 [] = none :=
  ⟨marked_inv, rfl⟩

/-! ## `updateChannel` and `removeChannel` at the inputs where they leave the spec -/

/-- C8, the failing input: for a new channel with fd 3 and `events = NONE` on the
empty poller, `updateChannel` registers the channel at slot 0 and the slot
stores 3, not -4. -/
theorem updateChannel_new_none_keeps_fd :
    observe (PollPoller.updateChannel (freshHeap 3 kNoneEvent) PollPoller.empty 0)
      = some ({ pollfds_ := [{ fd := 3, events := 0, revents := 0 }], channels_ := [(3, 0)] },
              { fd := 3, events := 0, revents := 0, index := 0 }) := by
  decide

/-- C1, the failing input: for a new channel with fd 3 and `events = NONE` on the
empty poller, `updateChannel` passes and stores 3 in the slot, and the
`removeChannel` that follows stops at `assert(pfd.fd == -channel->fd() - 1 ...)`. -/
theorem update_then_remove_aborts :
    observe (PollPoller.run [.update 0] (freshHeap 3 kNoneEvent, PollPoller.empty))
      = some ({ pollfds_ := [{ fd := 3, events := 0, revents := 0 }], channels_ := [(3, 0)] },
              { fd := 3, events := 0, revents := 0, index := 0 }) ∧
    observe (PollPoller.run [.update 0, .remove 0] (freshHeap 3 kNoneEvent, PollPoller.empty))
      = none := by
  decide

/-- C10, the failing input: a channel with fd 3 is registered for reading,
disabled (`events = NONE`, slot marked -4) and enabled for reading again; after
the last `updateChannel` the slot has the new interest mask and `revents = 0`,
and still stores -4. -/
theorem updateChannel_reenable_keeps_mark :
    observe (PollPoller.run
        [.update 0, .setEvents 0 kNoneEvent, .update 0, .setEvents 0 kReadEvent, .update 0]
        (freshHeap 3 kReadEvent, PollPoller.empty))
      = some ({ pollfds_ := [{ fd := -4, events := 3, revents := 0 }], channels_ := [(3, 0)] },
              { fd := 3, events := 3, revents := 0, index := 0 }) := by
  decide

/-- C2, the failing input: a channel with fd 3 is registered, disabled and
removed, every assertion passing; the poller is empty again, the channel keeps
`index = 0`, and the `updateChannel` that would register it again stops at
`assert(channels_.find(channel->fd()) != channels_.end())`. -/
theorem removeChannel_keeps_index :
    observe (PollPoller.run [.update 0, .setEvents 0 kNoneEvent, .update 0, .remove 0]
        (freshHeap 3 kReadEvent, PollPoller.empty))
      = some (PollPoller.empty, { fd := 3, events := 0, revents := 0, index := 0 }) ∧
    observe (PollPoller.run
        [.update 0, .setEvents 0 kNoneEvent, .update 0, .remove 0,
         .setEvents 0 kReadEvent, .update 0]
        (freshHeap 3 kReadEvent, PollPoller.empty))
      = none := by
  decide

/-! ## Properties of `EventLoopThreadPool` -/

theorem getNextLoop_of_lt (p : EventLoopThreadPool) (hstarted : p.started_ = true)
    (hlt : p.next_ < p.loops_.length) :
    p.getNextLoop = some (p.loops_.getD p.next_ p.baseLoop_,
      { p with next_ := (p.next_ + 1) % p.loops_.length }) := by
  have hne : p.loops_.isEmpty = false := by
    cases hl : p.loops_ with
    | nil => simp [hl] at hlt
    | cons _ _ => rfl
  have hget : p.loops_[p.next_]? = some (p.loops_.getD p.next_ p.baseLoop_) := by
    rw [List.getD_eq_getElem?_getD, List.getElem?_eq_getElem hlt]; rfl
  have hnext : (if p.loops_.length ≤ p.next_ + 1 then 0 else p.next_ + 1)
      = (p.next_ + 1) % p.loops_.length := by
    split
    · have : p.next_ + 1 = p.loops_.length := by omega
      rw [this, Nat.mod_self]
    · rw [Nat.mod_eq_of_lt (by omega)]
  simp only [EventLoopThreadPool.getNextLoop, hstarted, hne, hget, hnext]
  simp

theorem getNextLoops_of_lt (K : Nat) :
    ∀ (p : EventLoopThreadPool), p.started_ = true → p.next_ < p.loops_.length →
      p.getNextLoops K = some
        ((List.range K).map (fun i => p.loops_.getD ((p.next_ + i) % p.loops_.length) p.baseLoop_),
         { p with next_ := (p.next_ + K) % p.loops_.length }) := by
  induction K with
  | zero =>
    intro p _ hlt
    simp [EventLoopThreadPool.getNextLoops, Nat.mod_eq_of_lt hlt]
  | succ K ih =>
    intro p hstarted hlt
    have hpos : 0 < p.loops_.length := by omega
    have hstep := getNextLoop_of_lt p hstarted hlt
    have hrest := ih { p with next_ := (p.next_ + 1) % p.loops_.length } hstarted
      (Nat.mod_lt _ hpos)
    simp only [EventLoopThreadPool.getNextLoops, hstep, hrest]
    have hmod : ∀ i, ((p.next_ + 1) % p.loops_.length + i) % p.loops_.length
        = (p.next_ + (i + 1)) % p.loops_.length := by
      intro i
      rw [Nat.add_mod, Nat.mod_mod, ← Nat.add_mod]
      congr 1
      omega
    simp only [hmod, List.range_succ_eq_map, List.map_cons, List.map_map, Nat.add_zero,
      Nat.mod_eq_of_lt hlt]
    rfl

theorem countP_residue (N K j : Nat) (hj : j < N) :
    (List.range K).countP (fun i => decide (i % N = j)) = K / N + if j < K % N then 1 else 0 := by
  have h := Nat.count_modEq_card (b := K) (r := N) (by omega) j
  rw [Nat.mod_eq_of_lt hj] at h
  rw [← h, Nat.count]
  apply List.countP_congr
  intro i _
  simp [Nat.ModEq, Nat.mod_eq_of_lt hj]

theorem ceil_div_eq (N K : Nat) (hN : 0 < N) :
    (K + N - 1) / N = K / N + if K % N = 0 then 0 else 1 := by
  have hK := Nat.div_add_mod K N
  split
  · next h0 =>
    have : K + N - 1 = (N - 1) + N * (K / N) := by rw [h0] at hK; omega
    rw [this, Nat.add_mul_div_left _ _ hN, Nat.div_eq_of_lt (by omega)]
    omega
  · next h0 =>
    have hlt := Nat.mod_lt K hN
    have : K + N - 1 = (K % N - 1) + N * (K / N + 1) := by
      rw [Nat.mul_add]; omega
    rw [this, Nat.add_mul_div_left _ _ hN, Nat.div_eq_of_lt (by omega)]
    omega

theorem count_round_robin (loops : List EventLoopPtr) (base : EventLoopPtr) (hnd : loops.Nodup)
    (K j : Nat) (hj : j < loops.length) :
    ((List.range K).map (fun i => loops.getD (i % loops.length) base)).count loops[j]
      = K / loops.length + if j < K % loops.length then 1 else 0 := by
  rw [← countP_residue loops.length K j hj, List.count_eq_countP, List.countP_map]
  apply List.countP_congr
  intro i _
  have hi : i % loops.length < loops.length := Nat.mod_lt _ (by omega)
  have hget : loops.getD (i % loops.length) base = loops[i % loops.length] := by
    rw [List.getD_eq_getElem?_getD, List.getElem?_eq_getElem hi]; rfl
  simp only [Function.comp, hget, beq_iff_eq, decide_eq_true_eq]
  exact hnd.getElem_inj_iff

/-- C3: in a started pool with `next_ = 0`, `K` successive `getNextLoop()` calls
all return.  With no worker loop every call returns the base loop and leaves
the pool as it is.  With `N ≥ 1` worker loops the `i`-th call returns
`loops_[i mod N]` and the pool ends with `next_ = K mod N`; the worker loops
being distinct objects, the loop at position `j` is returned `K / N` times plus
once more when `j < K mod N`, which is `⌊K/N⌋` or `⌈K/N⌉` times. -/
theorem getNextLoop_round_robin (p : EventLoopThreadPool) (K : Nat)
    (hstarted : p.started_ = true) (hnext : p.next_ = 0) :
    (p.loops_ = [] → p.getNextLoops K = some (List.replicate K p.baseLoop_, p)) ∧
    (1 ≤ p.loops_.length →
      ∃ rs, p.getNextLoops K = some (rs, { p with next_ := K % p.loops_.length }) ∧
        rs.length = K ∧
        (∀ i, i < K → rs[i]? = p.loops_[i % p.loops_.length]?) ∧
        (p.loops_.Nodup → ∀ j (hj : j < p.loops_.length),
          rs.count p.loops_[j] = K / p.loops_.length + (if j < K % p.loops_.length then 1 else 0) ∧
          (rs.count p.loops_[j] = K / p.loops_.length ∨
           rs.count p.loops_[j] = (K + p.loops_.length - 1) / p.loops_.length))) := by
  constructor
  · intro hempty
    have hcall : p.getNextLoop = some (p.baseLoop_, p) := by
      simp [EventLoopThreadPool.getNextLoop, hstarted, hempty]
    clear hnext
    induction K with
    | zero => rfl
    | succ K ih => simp [EventLoopThreadPool.getNextLoops, hcall, ih, List.replicate_succ]
  · intro hN
    have hlt : p.next_ < p.loops_.length := by omega
    have hrun := getNextLoops_of_lt K p hstarted hlt
    simp only [hnext, Nat.zero_add] at hrun
    refine ⟨_, hrun, by simp, ?_, ?_⟩
    · intro i hi
      have hmod : i % p.loops_.length < p.loops_.length := Nat.mod_lt _ (by omega)
      rw [List.getElem?_map, List.getElem?_range hi, Option.map_some',
        List.getD_eq_getElem?_getD, List.getElem?_eq_getElem hmod]
      rfl
    · intro hnd j hj
      have hcount := count_round_robin p.loops_ p.baseLoop_ hnd K j hj
      refine ⟨hcount, ?_⟩
      rw [hcount, ceil_div_eq _ _ (by omega)]
      have hmodlt : K % p.loops_.length < p.loops_.length := Nat.mod_lt _ (by omega)
      by_cases hjk : j < K % p.loops_.length
      · right
        have : K % p.loops_.length ≠ 0 := by omega
        simp [hjk, this]
      · left
        simp [hjk]

/-- C3, an instance: three worker loops, seven calls; the calls return
L0 L1 L2 L0 L1 L2 L0, so the counts are L0:3, L1:2, L2:2. -/
theorem getNextLoop_round_robin_witness :
    (poolOfThree.started_ = true ∧ poolOfThree.next_ = 0 ∧ 1 ≤ poolOfThree.loops_.length) ∧
    (∃ rs, poolOfThree.getNextLoops 7
        = some (rs, { poolOfThree with next_ := 7 % poolOfThree.loops_.length }) ∧
      rs.length = 7 ∧
      (∀ i, i < 7 → rs[i]? = poolOfThree.loops_[i % poolOfThree.loops_.length]?) ∧
      (poolOfThree.loops_.Nodup → ∀ j (hj : j < poolOfThree.loops_.length),
        rs.count poolOfThree.loops_[j]
          = 7 / poolOfThree.loops_.length + (if j < 7 % poolOfThree.loops_.length then 1 else 0) ∧
        (rs.count poolOfThree.loops_[j] = 7 / poolOfThree.loops_.length ∨
         rs.count poolOfThree.loops_[j]
          = (7 + poolOfThree.loops_.length - 1) / poolOfThree.loops_.length))) ∧
    poolOfThree.loops_.Nodup ∧
    (poolOfThree.getNextLoops 7).map (fun r => (r.1, r.1.count 10, r.1.count 11, r.1.count 12))
      = some ([10, 11, 12, 10, 11, 12, 10], 3, 2, 2) :=
  ⟨⟨rfl, rfl, by decide⟩, (getNextLoop_round_robin poolOfThree 7 rfl rfl).2 (by decide),
    by decide, by decide⟩

/-- C9: `getLoopForHash(h)` returns for every `h` and leaves the pool as it is,
so a repeated call returns the same loop and the `getNextLoop()` sequence is
not disturbed.  With no worker loop it returns the base loop; with `N ≥ 1`
worker loops it returns `loops_[h mod N]`, and `h` and `h + N` are served by
the same loop. -/
theorem getLoopForHash_stable (p : EventLoopThreadPool) (hash : Nat) :
    (p.getLoopForHash hash).2 = p ∧
    ((p.getLoopForHash hash).2.getLoopForHash hash).1 = (p.getLoopForHash hash).1 ∧
    (p.getLoopForHash hash).2.getNextLoop = p.getNextLoop ∧
    (p.loops_ = [] → (p.getLoopForHash hash).1 = p.baseLoop_) ∧
    (1 ≤ p.loops_.length →
      some (p.getLoopForHash hash).1 = p.loops_[hash % p.loops_.length]? ∧
      (p.getLoopForHash (hash + p.loops_.length)).1 = (p.getLoopForHash hash).1) := by
  have hsame : (p.getLoopForHash hash).2 = p := by
    unfold EventLoopThreadPool.getLoopForHash
    split <;> rfl
  refine ⟨hsame, by rw [hsame], by rw [hsame], ?_, ?_⟩
  · intro hempty
    simp [EventLoopThreadPool.getLoopForHash, hempty]
  · intro hN
    have hne : p.loops_.isEmpty = false := by
      cases hl : p.loops_ with
      | nil => simp [hl] at hN
      | cons _ _ => rfl
    have hmod : hash % p.loops_.length < p.loops_.length := Nat.mod_lt _ (by omega)
    constructor
    · simp only [EventLoopThreadPool.getLoopForHash, hne, Bool.false_eq_true, if_false]
      rw [List.getD_eq_getElem?_getD, List.getElem?_eq_getElem hmod]
      rfl
    · simp only [EventLoopThreadPool.getLoopForHash, hne, Bool.false_eq_true, if_false,
        Nat.add_mod_right]

/-- C9, an instance: four worker loops; hashes 42 and 46 are both served by
`loops_[2]`. -/
theorem getLoopForHash_stable_witness :
    1 ≤ poolOfFour.loops_.length ∧
    (some (poolOfFour.getLoopForHash 42).1 = poolOfFour.loops_[42 % poolOfFour.loops_.length]? ∧
     (poolOfFour.getLoopForHash (42 + poolOfFour.loops_.length)).1
      = (poolOfFour.getLoopForHash 42).1) ∧
    (poolOfFour.getLoopForHash 42).1 = 12 ∧ (poolOfFour.getLoopForHash 46).1 = 12 :=
  ⟨by decide, (getLoopForHash_stable poolOfFour 42).2.2.2.2 (by decide), by decide, by decide⟩

/-! ## Properties of the pending-functor queue -/

theorem foldl_queueInLoop (tid : Nat) (gs : List Functor) :
    ∀ (r : LoopRun),
      let r1 := gs.foldl (fun acc g => EventLoop.queueInLoop tid g acc) r
      r1.loop.pendingFunctors_ = r.loop.pendingFunctors_ ++ gs ∧
      r1.enqueued = r.enqueued ++ gs ∧
      r1.executed = r.executed ∧
      r1.loop.callingPendingFunctors_ = r.loop.callingPendingFunctors_ ∧
      r1.loop.threadId_ = r.loop.threadId_ ∧
      r1.loop.looping_ = r.loop.looping_ ∧
      r1.loop.quit_ = r.loop.quit_ := by
  induction gs with
  | nil => intro r; simp
  | cons g rest ih =>
    intro r
    have h := ih (EventLoop.queueInLoop tid g r)
    simp only [List.foldl_cons]
    simp only [EventLoop.queueInLoop] at h ⊢
    obtain ⟨h1, h2, h3, h4, h5, h6, h7⟩ := h
    refine ⟨?_, ?_, h3, h4, h5, h6, h7⟩
    · rw [h1]; simp
    · rw [h2]; simp

theorem callFunctor_spec (tid : Nat) (r : LoopRun) (f : Functor) :
    (EventLoop.callFunctor tid r f).loop.pendingFunctors_ = r.loop.pendingFunctors_ ++ f.queues ∧
    (EventLoop.callFunctor tid r f).enqueued = r.enqueued ++ f.queues ∧
    (EventLoop.callFunctor tid r f).executed = r.executed ++ [f] ∧
    (EventLoop.callFunctor tid r f).loop.callingPendingFunctors_
      = r.loop.callingPendingFunctors_ ∧
    (EventLoop.callFunctor tid r f).loop.threadId_ = r.loop.threadId_ :=
  let h := foldl_queueInLoop tid f.queues { r with executed := r.executed ++ [f] }
  ⟨h.1, h.2.1, h.2.2.1, h.2.2.2.1, h.2.2.2.2.1⟩

theorem foldl_callFunctor (tid : Nat) (fs : List Functor) :
    ∀ (r : LoopRun),
      (fs.foldl (EventLoop.callFunctor tid) r).loop.pendingFunctors_
        = r.loop.pendingFunctors_ ++ fs.flatMap Functor.queues ∧
      (fs.foldl (EventLoop.callFunctor tid) r).enqueued
        = r.enqueued ++ fs.flatMap Functor.queues ∧
      (fs.foldl (EventLoop.callFunctor tid) r).executed = r.executed ++ fs ∧
      (fs.foldl (EventLoop.callFunctor tid) r).loop.threadId_ = r.loop.threadId_ := by
  induction fs with
  | nil => intro r; simp
  | cons f rest ih =>
    intro r
    obtain ⟨h1, h2, h3, h4⟩ := ih (EventLoop.callFunctor tid r f)
    obtain ⟨c1, c2, c3, _, c5⟩ := callFunctor_spec tid r f
    simp only [List.foldl_cons, List.flatMap_cons]
    exact ⟨by rw [h1, c1, List.append_assoc], by rw [h2, c2, List.append_assoc],
      by rw [h3, c3]; simp, by rw [h4, c5]⟩

theorem doPendingFunctors_spec (tid : Nat) (r : LoopRun) :
    (EventLoop.doPendingFunctors tid r).executed = r.executed ++ r.loop.pendingFunctors_ ∧
    (EventLoop.doPendingFunctors tid r).loop.pendingFunctors_
      = r.loop.pendingFunctors_.flatMap Functor.queues ∧
    (EventLoop.doPendingFunctors tid r).enqueued
      = r.enqueued ++ r.loop.pendingFunctors_.flatMap Functor.queues ∧
    (EventLoop.doPendingFunctors tid r).loop.threadId_ = r.loop.threadId_ := by
  obtain ⟨h1, h2, h3, h4⟩ := foldl_callFunctor tid r.loop.pendingFunctors_
    { r with loop := { r.loop with callingPendingFunctors_ := true, pendingFunctors_ := [] } }
  simp only [EventLoop.doPendingFunctors]
  exact ⟨h3, by simpa using h1, h2, h4⟩

theorem runQueueOps_log (ops : List QueueOp) :
    ∀ (r : LoopRun), r.enqueued = r.executed ++ r.loop.pendingFunctors_ →
      (EventLoop.runQueueOps r ops).enqueued
        = (EventLoop.runQueueOps r ops).executed
          ++ (EventLoop.runQueueOps r ops).loop.pendingFunctors_ := by
  induction ops with
  | nil => intro r h; exact h
  | cons op rest ih =>
    intro r h
    cases op with
    | queue tid cb =>
      apply ih
      simp [EventLoop.queueInLoop, h]
    | drain =>
      apply ih
      obtain ⟨h1, h2, h3, _⟩ := doPendingFunctors_spec r.loop.threadId_ r
      rw [h1, h2, h3, h, List.append_assoc]

/-- C4: `queueInLoop` appends the functor at the tail of `pendingFunctors_`;
`doPendingFunctors` calls exactly the functors that were pending when it
swapped the list, once each and in queue order, and leaves in
`pendingFunctors_` exactly the functors those calls enqueued, in the order
they were enqueued; over every sequence of enqueues and drains the functors
handed to `queueInLoop`, in call order, are the functors called so far, in
call order, followed by the ones still pending: no functor is called twice
and the calls follow the enqueue order. -/
theorem pendingFunctors_fifo_once :
    (∀ tid cb r, (EventLoop.queueInLoop tid cb r).loop.pendingFunctors_
        = r.loop.pendingFunctors_ ++ [cb] ∧
      (EventLoop.queueInLoop tid cb r).executed = r.executed) ∧
    (∀ tid r, (EventLoop.doPendingFunctors tid r).executed
        = r.executed ++ r.loop.pendingFunctors_ ∧
      (EventLoop.doPendingFunctors tid r).loop.pendingFunctors_
        = r.loop.pendingFunctors_.flatMap Functor.queues) ∧
    (∀ tid ops,
      (EventLoop.runQueueOps (LoopRun.init tid) ops).enqueued
        = (EventLoop.runQueueOps (LoopRun.init tid) ops).executed
          ++ (EventLoop.runQueueOps (LoopRun.init tid) ops).loop.pendingFunctors_) := by
  refine ⟨fun tid cb r => ⟨rfl, rfl⟩, fun tid r => ?_, fun tid ops => ?_⟩
  · exact ⟨(doPendingFunctors_spec tid r).1, (doPendingFunctors_spec tid r).2.1⟩
  · exact runQueueOps_log ops (LoopRun.init tid) rfl

/-! ## Thread affinity of `EventLoop` -/

/-- The body of `abortNotInLoopThread` in `src/EventLoop.cc` prints one line and
returns to its caller, for every loop and every thread; it forwards nothing. -/
theorem abortNotInLoopThread_returns (l : EventLoop) (tid : Nat) (e : Effects) :
    ∃ e1, l.abortNotInLoopThread tid e = .returned e1 ∧ e1.forwarded = e.forwarded ∧
      e1.printed.length = e.printed.length + 1 :=
  ⟨_, rfl, rfl, by simp⟩

theorem snd_eq_of_nodup_fst {α β : Type} :
    ∀ (l : List (α × β)), (l.map Prod.fst).Nodup →
      ∀ a b c, (a, b) ∈ l → (a, c) ∈ l → b = c := by
  intro l
  induction l with
  | nil => intro _ a b c hb; simp at hb
  | cons x rest ih =>
    intro hnd a b c hb hc
    simp only [List.map_cons, List.nodup_cons] at hnd
    rcases List.mem_cons.mp hb with hb1 | hb1 <;> rcases List.mem_cons.mp hc with hc1 | hc1
    · rw [← hb1] at hc1; exact (Prod.mk.inj hc1).2.symm
    · exact absurd (List.mem_map_of_mem Prod.fst hc1) (by rw [← hb1] at hnd; exact hnd.1)
    · exact absurd (List.mem_map_of_mem Prod.fst hb1) (by rw [← hc1] at hnd; exact hnd.1)
    · exact ih hnd.2 a b c hb1 hc1

theorem length_le_one_of_all_eq {α : Type} (l : List α) (hnd : l.Nodup)
    (heq : ∀ a ∈ l, ∀ b ∈ l, a = b) : l.length ≤ 1 := by
  match l, hnd, heq with
  | [], _, _ => simp
  | [_], _, _ => simp
  | x :: y :: t, hnd, heq =>
    have hxy : x = y := heq x (by simp) y (by simp)
    subst hxy
    simp at hnd

theorem init_singleLoopInv : Process.init.SingleLoopInv := by
  refine ⟨by simp [Process.init], by simp [Process.init], ?_⟩
  intro tid a
  simp [Process.init]

theorem construct_singleLoopInv (w w1 : Process) (tid : Nat) (hinv : w.SingleLoopInv)
    (hstep : EventLoop.construct w tid = .returned w1) : w1.SingleLoopInv := by
  obtain ⟨hnd, hlt, hslot⟩ := hinv
  unfold EventLoop.construct at hstep
  cases hs : w.t_loopInThisThread tid with
  | some a => simp [hs] at hstep
  | none =>
    simp only [hs, Outcome.returned.injEq] at hstep
    subst hstep
    refine ⟨?_, ?_, ?_⟩
    · simp only [List.map_append, List.map_cons, List.map_nil]
      rw [List.nodup_append]
      refine ⟨hnd, by simp, ?_⟩
      intro a ha hb
      simp only [List.mem_singleton] at hb
      exact Nat.lt_irrefl _ (hb ▸ hlt a ha)
    · intro a ha
      simp only [List.map_append, List.map_cons, List.map_nil, List.mem_append,
        List.mem_singleton] at ha
      rcases ha with ha | ha
      · exact Nat.lt_succ_of_lt (hlt a ha)
      · rw [ha]; exact Nat.lt_succ_self _
    · intro tid1 a
      by_cases ht : tid1 = tid
      · subst ht
        simp only [Function.update_same, Option.some.injEq, List.mem_append, List.mem_singleton]
        constructor
        · intro h; subst h; exact ⟨_, Or.inr rfl, rfl⟩
        · rintro ⟨l, hl | hl, hown⟩
          · have := (hslot tid1 a).mpr ⟨l, hl, hown⟩
            rw [hs] at this
            cases this
          · exact ((Prod.mk.inj hl).1).symm
      · simp only [Function.update_noteq ht, List.mem_append, List.mem_singleton]
        rw [hslot tid1 a]
        constructor
        · rintro ⟨l, hl, hown⟩; exact ⟨l, Or.inl hl, hown⟩
        · rintro ⟨l, hl | hl, hown⟩
          · exact ⟨l, hl, hown⟩
          · rw [(Prod.mk.inj hl).2] at hown
            exact absurd hown.symm ht

theorem destroy_singleLoopInv (w w1 : Process) (tid : Nat) (this : EventLoopPtr)
    (hinv : w.SingleLoopInv) (hown : w.ownerOf this = some tid)
    (hstep : EventLoop.destroy w tid this = .returned w1) : w1.SingleLoopInv := by
  obtain ⟨hnd, hlt, hslot⟩ := hinv
  unfold EventLoop.destroy at hstep
  unfold Process.ownerOf at hown
  cases hf : w.alive.find? (fun a => decide (a.1 = this)) with
  | none => simp [hf] at hstep
  | some al =>
    obtain ⟨a0, l⟩ := al
    have ha0 : a0 = this := by simpa using List.find?_some hf
    subst ha0
    have hmem : (a0, l) ∈ w.alive := List.mem_of_find?_eq_some hf
    have hltid : l.threadId_ = tid := by simpa [hf] using hown
    have hslot0 : w.t_loopInThisThread tid = some a0 := (hslot tid a0).mpr ⟨l, hmem, hltid⟩
    simp only [hf] at hstep
    split at hstep
    · cases hstep
    · simp only [Outcome.returned.injEq] at hstep
      subst hstep
      refine ⟨?_, ?_, ?_⟩
      · exact ((List.filter_sublist _).map Prod.fst).nodup hnd
      · intro a ha
        exact hlt a (((List.filter_sublist _).map Prod.fst).subset ha)
      · intro tid1 a
        simp only [List.mem_filter, decide_eq_true_eq]
        by_cases ht : tid1 = tid
        · subst ht
          simp only [Function.update_same]
          constructor
          · intro h; cases h
          · rintro ⟨l1, ⟨hl1, hne⟩, hown1⟩
            have := (hslot tid1 a).mpr ⟨l1, hl1, hown1⟩
            rw [hslot0] at this
            exact absurd (Option.some.inj this).symm hne
        · simp only [Function.update_noteq ht]
          rw [hslot tid1 a]
          constructor
          · rintro ⟨l1, hl1, hown1⟩
            refine ⟨l1, ⟨hl1, ?_⟩, hown1⟩
            intro heq
            subst heq
            have := snd_eq_of_nodup_fst w.alive hnd a l1 l hl1 hmem
            rw [this, hltid] at hown1
            exact ht hown1.symm
          · rintro ⟨l1, ⟨hl1, _⟩, hown1⟩
            exact ⟨l1, hl1, hown1⟩

theorem run_singleLoopInv (cs : List LifeCall) :
    ∀ (w0 w : Process), w0.SingleLoopInv → Process.run cs w0 = .returned w →
      Process.destroysOnOwnThread cs w0 → w.SingleLoopInv := by
  induction cs with
  | nil =>
    intro w0 w hinv hrun _
    simp only [Process.run, Outcome.returned.injEq] at hrun
    exact hrun ▸ hinv
  | cons c rest ih =>
    intro w0 w hinv hrun hown
    cases c with
    | construct tid =>
      simp only [Process.run, Process.destroysOnOwnThread] at hrun hown
      cases hstep : EventLoop.construct w0 tid with
      | returned w1 =>
        simp only [hstep] at hrun hown
        exact ih w1 w (construct_singleLoopInv w0 w1 tid hinv hstep) hrun hown
      | terminated => simp [hstep] at hrun
      | undefined => simp [hstep] at hrun
    | destroy tid this =>
      simp only [Process.run, Process.destroysOnOwnThread] at hrun hown
      cases hstep : EventLoop.destroy w0 tid this with
      | returned w1 =>
        simp only [hstep] at hrun hown
        exact ih w1 w (destroy_singleLoopInv w0 w1 tid this hinv hown.1 hstep) hrun hown.2
      | terminated => simp [hstep] at hrun
      | undefined => simp [hstep] at hrun

theorem loopsOf_of_singleLoopInv (w : Process) (hinv : w.SingleLoopInv) (tid : Nat) :
    (w.loopsOf tid).length ≤ 1 ∧
    (∀ a, a ∈ w.loopsOf tid ↔ EventLoop.getEventLoopOfCurrentThread w tid = some a) := by
  obtain ⟨hnd, _, hslot⟩ := hinv
  have hiff : ∀ a, a ∈ w.loopsOf tid ↔ EventLoop.getEventLoopOfCurrentThread w tid = some a := by
    intro a
    simp only [Process.loopsOf, EventLoop.getEventLoopOfCurrentThread, List.mem_map,
      List.mem_filter, decide_eq_true_eq]
    rw [hslot tid a]
    constructor
    · rintro ⟨⟨a1, l⟩, ⟨hl, hown⟩, rfl⟩; exact ⟨l, hl, hown⟩
    · rintro ⟨l, hl, hown⟩; exact ⟨(a, l), ⟨hl, hown⟩, rfl⟩
  refine ⟨?_, hiff⟩
  apply length_le_one_of_all_eq
  · exact ((List.filter_sublist _).map Prod.fst).nodup hnd
  · intro a ha b hb
    have h1 := (hiff a).mp ha
    have h2 := (hiff b).mp hb
    rw [h1] at h2
    exact Option.some.inj h2

/-- C6 (as amended): in every state reached from the start of the process by
constructor and destructor calls in which each loop is destroyed by the thread
that created it, every thread has at most one loop alive, and
`getEventLoopOfCurrentThread` returns exactly that loop (null when there is
none); in such a state a constructor call on a thread whose slot holds a loop
terminates the program, a constructor call on a thread whose slot is null
returns and leaves the new loop in the slot as the only loop of the thread,
and a destructor call that returns leaves the slot of the calling thread null. -/
theorem single_loop_per_thread (cs : List LifeCall) (w : Process)
    (hrun : Process.run cs Process.init = .returned w)
    (hown : Process.destroysOnOwnThread cs Process.init) :
    (∀ tid, (w.loopsOf tid).length ≤ 1 ∧
      ∀ a, a ∈ w.loopsOf tid ↔ EventLoop.getEventLoopOfCurrentThread w tid = some a) ∧
    (∀ tid a, w.t_loopInThisThread tid = some a → EventLoop.construct w tid = .terminated) ∧
    (∀ tid, w.t_loopInThisThread tid = none →
      ∃ w1, EventLoop.construct w tid = .returned w1 ∧
        EventLoop.getEventLoopOfCurrentThread w1 tid = some w.nextAddr ∧
        w1.loopsOf tid = [w.nextAddr]) ∧
    (∀ tid this w1, EventLoop.destroy w tid this = .returned w1 →
      EventLoop.getEventLoopOfCurrentThread w1 tid = none) := by
  have hinv := run_singleLoopInv cs Process.init w init_singleLoopInv hrun hown
  refine ⟨fun tid => loopsOf_of_singleLoopInv w hinv tid, ?_, ?_, ?_⟩
  · intro tid a hs
    simp [EventLoop.construct, hs]
  · intro tid hs
    have hstep : EventLoop.construct w tid = .returned
        { t_loopInThisThread := Function.update w.t_loopInThisThread tid (some w.nextAddr)
          alive := w.alive ++ [(w.nextAddr, (LoopRun.init tid).loop)]
          nextAddr := w.nextAddr + 1 } := by
      simp only [EventLoop.construct, hs, LoopRun.init]
    refine ⟨_, hstep, ?_, ?_⟩
    · simp [EventLoop.getEventLoopOfCurrentThread]
    · have hnone : w.alive.filter (fun a => decide (a.2.threadId_ = tid)) = [] := by
        rw [List.filter_eq_nil_iff]
        intro al hal
        simp only [decide_eq_true_eq]
        intro hown1
        have := (hinv.2.2 tid al.1).mpr ⟨al.2, hal, hown1⟩
        rw [hs] at this
        cases this
      simp [Process.loopsOf, List.filter_append, hnone, LoopRun.init]
  · intro tid this w1 hstep
    unfold EventLoop.destroy at hstep
    split at hstep
    · cases hstep
    · split at hstep
      · cases hstep
      · simp only [Outcome.returned.injEq] at hstep
        subst hstep
        simp [EventLoop.getEventLoopOfCurrentThread]

theorem ownThread_run : Process.run ownThreadCalls Process.init = .returned ownThreadProcess :=
  rfl

theorem ownThread_destroys : Process.destroysOnOwnThread ownThreadCalls Process.init := by
  simp [Process.destroysOnOwnThread, ownThreadCalls, EventLoop.construct, EventLoop.destroy,
    Process.ownerOf, Process.init]

/-- C6, an instance: thread 1 creates a loop, thread 2 creates a loop, thread 1
destroys its loop and creates another; every destructor runs on the creating
thread, and each thread ends with one loop, the one in its slot. -/
theorem single_loop_per_thread_witness :
    Process.run ownThreadCalls Process.init = .returned ownThreadProcess ∧
    Process.destroysOnOwnThread ownThreadCalls Process.init ∧
    (∀ tid, (ownThreadProcess.loopsOf tid).length ≤ 1 ∧
      ∀ a, a ∈ ownThreadProcess.loopsOf tid ↔
        EventLoop.getEventLoopOfCurrentThread ownThreadProcess tid = some a) ∧
    ownThreadProcess.loopsOf 1 = [3] ∧ ownThreadProcess.loopsOf 2 = [2] :=
  ⟨ownThread_run, ownThread_destroys,
    (single_loop_per_thread ownThreadCalls ownThreadProcess ownThread_run ownThread_destroys).1,
    by decide, by decide⟩

/-- C6 as stated fails: thread 2 creates a loop, thread 1 creates a loop, thread 2
destroys the loop of thread 1, which clears the slot of thread 2, and thread 2
creates a second loop; all four calls return, two loops created by thread 2
are alive, and the slot of thread 1 still holds the address of the destroyed
loop. -/
theorem second_loop_after_foreign_destroy :
    (Process.run crossThreadCalls Process.init).toOption.map
      (fun w => (w.loopsOf 2, w.loopsOf 1, EventLoop.getEventLoopOfCurrentThread w 1,
        EventLoop.getEventLoopOfCurrentThread w 2))
      = some ([1, 3], [], some 2, some 3) := by
  decide

/-! ## The map operations -/

theorem find_assign_same (m : ChannelMap) (k : Int) (p : ChannelPtr) :
    (m.assign k p).find k = some p := by
  induction m with
  | nil => simp [ChannelMap.assign, ChannelMap.find]
  | cons e rest ih =>
    obtain ⟨k1, q⟩ := e
    simp only [ChannelMap.assign]
    split
    · simp [ChannelMap.find]
    · split
      · simp [ChannelMap.find]
      · next h1 h2 => simp [ChannelMap.find, h2, ih]

theorem find_assign_ne (m : ChannelMap) (k k1 : Int) (p : ChannelPtr) (hne : k1 ≠ k) :
    (m.assign k p).find k1 = m.find k1 := by
  induction m with
  | nil => simp [ChannelMap.assign, ChannelMap.find, hne]
  | cons e rest ih =>
    obtain ⟨k2, q⟩ := e
    simp only [ChannelMap.assign]
    split
    · simp [ChannelMap.find, hne]
    · split
      · next h1 h2 => subst h2; simp [ChannelMap.find, hne]
      · simp [ChannelMap.find, ih]

theorem find_eq_none_iff (m : ChannelMap) (k : Int) :
    m.find k = none ↔ k ∉ m.map Prod.fst := by
  induction m with
  | nil => simp [ChannelMap.find]
  | cons e rest ih =>
    obtain ⟨k1, q⟩ := e
    by_cases h : k = k1
    · simp [ChannelMap.find, h]
    · simp [ChannelMap.find, h, ih]

theorem find_erase_same (m : ChannelMap) (k : Int) : (m.erase k).find k = none := by
  rw [find_eq_none_iff]
  simp [ChannelMap.erase, List.mem_filter]

theorem find_erase_ne (m : ChannelMap) (k k1 : Int) (hne : k1 ≠ k) :
    (m.erase k).find k1 = m.find k1 := by
  induction m with
  | nil => rfl
  | cons e rest ih =>
    obtain ⟨k2, q⟩ := e
    by_cases h : k2 = k
    · subst h
      have : ChannelMap.erase ((k2, q) :: rest) k2 = ChannelMap.erase rest k2 := by
        simp [ChannelMap.erase]
      rw [this, ih]
      simp [ChannelMap.find, hne]
    · have : ChannelMap.erase ((k2, q) :: rest) k = (k2, q) :: ChannelMap.erase rest k := by
        simp [ChannelMap.erase, h]
      rw [this]
      simp only [ChannelMap.find, ih]

theorem mem_keys_assign (m : ChannelMap) (k : Int) (p : ChannelPtr) (x : Int) :
    x ∈ (m.assign k p).map Prod.fst ↔ x = k ∨ x ∈ m.map Prod.fst := by
  induction m with
  | nil => simp [ChannelMap.assign]
  | cons e rest ih =>
    obtain ⟨k1, q⟩ := e
    simp only [ChannelMap.assign]
    split
    · simp
    · split
      · next h1 h2 => subst h2; simp
      · simp only [List.map_cons, List.mem_cons, ih]
        tauto

theorem nodup_keys_assign (m : ChannelMap) (k : Int) (p : ChannelPtr)
    (hnd : (m.map Prod.fst).Nodup) (hnew : m.find k = none) :
    ((m.assign k p).map Prod.fst).Nodup := by
  rw [find_eq_none_iff] at hnew
  induction m with
  | nil => simp [ChannelMap.assign]
  | cons e rest ih =>
    obtain ⟨k1, q⟩ := e
    simp only [List.map_cons, List.mem_cons, not_or, List.nodup_cons] at hnew hnd
    simp only [ChannelMap.assign]
    split
    · simp only [List.map_cons, List.nodup_cons, List.mem_cons, not_or]
      exact ⟨⟨hnew.1, hnew.2⟩, hnd.1, hnd.2⟩
    · split
      · next h1 h2 => exact absurd h2 hnew.1
      · simp only [List.map_cons, List.nodup_cons, mem_keys_assign]
        refine ⟨?_, ih hnd.2 hnew.2⟩
        rintro (h | h)
        · exact hnew.1 h.symm
        · exact hnd.1 h

theorem nodup_keys_erase (m : ChannelMap) (k : Int) (hnd : (m.map Prod.fst).Nodup) :
    ((m.erase k).map Prod.fst).Nodup :=
  ((List.filter_sublist _).map Prod.fst).nodup hnd

theorem erase_assign_of_find_none (m : ChannelMap) (k : Int) (p : ChannelPtr)
    (hnew : m.find k = none) : (m.assign k p).erase k = m := by
  rw [find_eq_none_iff] at hnew
  induction m with
  | nil => simp [ChannelMap.assign, ChannelMap.erase]
  | cons e rest ih =>
    obtain ⟨k1, q⟩ := e
    simp only [List.map_cons, List.mem_cons, not_or] at hnew
    have hk1 : k1 ≠ k := fun h => hnew.1 h.symm
    simp only [ChannelMap.assign]
    split
    · simp [ChannelMap.erase, hk1]
      intro a b hab
      intro hak
      exact hnew.2 (hak ▸ List.mem_map_of_mem Prod.fst hab)
    · split
      · next h1 h2 => exact absurd h2 hnew.1
      · have ih1 := ih hnew.2
        simp only [ChannelMap.erase] at ih1 ⊢
        simpa [List.filter_cons, hk1] using ih1

theorem eraseCount_of_find_some (m : ChannelMap) (k : Int) (p : ChannelPtr)
    (hnd : (m.map Prod.fst).Nodup) (hfind : m.find k = some p) : m.eraseCount k = 1 := by
  induction m with
  | nil => simp [ChannelMap.find] at hfind
  | cons e rest ih =>
    obtain ⟨k1, q⟩ := e
    simp only [List.map_cons, List.nodup_cons] at hnd
    by_cases h : k = k1
    · subst h
      have hrest : rest.filter (fun e => decide (e.1 = k)) = [] := by
        rw [List.filter_eq_nil_iff]
        intro e he
        simp only [decide_eq_true_eq]
        intro hek
        exact hnd.1 (hek ▸ List.mem_map_of_mem Prod.fst he)
      simp [ChannelMap.eraseCount, List.filter_cons, hrest]
    · have hk1 : ¬ k1 = k := fun h1 => h h1.symm
      simp only [ChannelMap.find, h, if_false] at hfind
      have := ih hnd.2 hfind
      simp only [ChannelMap.eraseCount] at this ⊢
      simp [List.filter_cons, hk1, this]

/-! ## The registration invariant along `updateChannel` and `removeChannel` -/

theorem decodeFd_of_slot (k x : Int) (hk : 0 ≤ k) (hx : x = k ∨ x = -k - 1) :
    decodeFd x = k := by
  unfold decodeFd
  split <;> omega

theorem inv_same_slot (h : Heap) (s : PollPoller) (hinv : RegistrationInv h s)
    (k k1 : Int) (p q : ChannelPtr) (hp : s.channels_.find k = some p)
    (hq : s.channels_.find k1 = some q) (hidx : (h p).index = (h q).index) :
    k = k1 ∧ p = q := by
  obtain ⟨_, hreg, _⟩ := hinv
  obtain ⟨_, hk, _, pfd, hslot, hfd⟩ := hreg k p hp
  obtain ⟨_, hk1, _, pfd1, hslot1, hfd1⟩ := hreg k1 q hq
  rw [hidx, hslot1] at hslot
  have hpp : pfd1 = pfd := Option.some.inj hslot
  subst hpp
  have e1 := decodeFd_of_slot k pfd1.fd hk hfd
  have e2 := decodeFd_of_slot k1 pfd1.fd hk1 hfd1
  have hkk : k = k1 := by rw [← e1, ← e2]
  subst hkk
  rw [hp] at hq
  exact ⟨rfl, Option.some.inj hq⟩

theorem updateChannel_new_preserves_inv (h : Heap) (s : PollPoller) (c : ChannelPtr)
    (pfd0 : PollFd) (hinv : RegistrationInv h s) (hfd : 0 ≤ (h c).fd)
    (hidx : (h c).index < 0) (hnew : s.channels_.find (h c).fd = none)
    (hpfd : pfd0.fd = (h c).fd) :
    RegistrationInv
      (Function.update h c { h c with index := ((s.pollfds_ ++ [pfd0]).length : Int) - 1 })
      { pollfds_ := s.pollfds_ ++ [pfd0], channels_ := s.channels_.assign pfd0.fd c } := by
  obtain ⟨hnd, hreg, hslot⟩ := hinv
  have hlen : ((s.pollfds_ ++ [pfd0]).length : Int) - 1 = (s.pollfds_.length : Int) := by
    simp
  rw [hlen, hpfd]
  refine ⟨nodup_keys_assign _ _ _ hnd hnew, ?_, ?_⟩
  · intro k p hfind
    by_cases hk : k = (h c).fd
    · subst hk
      rw [find_assign_same] at hfind
      cases hfind
      simp only [Function.update_same]
      refine ⟨trivial, hfd, by omega, pfd0, ?_, Or.inl hpfd⟩
      simp
    · rw [find_assign_ne _ _ _ _ hk] at hfind
      obtain ⟨h1, h2, h3, pfd, h4, h5⟩ := hreg k p hfind
      have hpc : p ≠ c := by
        intro hpc
        subst hpc
        exact hk h1.symm
      simp only [Function.update_noteq hpc]
      refine ⟨h1, h2, h3, pfd, ?_, h5⟩
      have hlt : (h p).index.toNat < s.pollfds_.length := by
        rw [List.getElem?_eq_some_iff] at h4
        exact h4.1
      rw [List.getElem?_append_left hlt]
      exact h4
  · intro j pfd hj
    by_cases hlt : j < s.pollfds_.length
    · rw [List.getElem?_append_left hlt] at hj
      obtain ⟨p, hp, hpi⟩ := hslot j pfd hj
      have hk : decodeFd pfd.fd ≠ (h c).fd := by
        intro hk
        rw [hk, hnew] at hp
        cases hp
      have hpc : p ≠ c := by
        intro hpc
        subst hpc
        omega
      exact ⟨p, by rw [find_assign_ne _ _ _ _ hk]; exact hp,
        by simp only [Function.update_noteq hpc]; exact hpi⟩
    · have hjlen : j = s.pollfds_.length := by
        have := (List.getElem?_eq_some_iff.mp hj).1
        simp at this
        omega
      subst hjlen
      simp at hj
      subst hj
      refine ⟨c, ?_, by simp⟩
      have hdec : decodeFd pfd0.fd = (h c).fd := by
        rw [hpfd]
        unfold decodeFd
        split <;> omega
      simp only [hdec, find_assign_same]

theorem updateChannel_old_preserves_inv (h : Heap) (s : PollPoller) (c : ChannelPtr)
    (pfd pfd2 : PollFd) (hinv : RegistrationInv h s)
    (hfind : s.channels_.find (h c).fd = some c)
    (hslotc : s.pollfds_[(h c).index.toNat]? = some pfd)
    (hfd2 : pfd2.fd = pfd.fd ∨ pfd2.fd = -(h c).fd - 1) :
    RegistrationInv h { s with pollfds_ := s.pollfds_.set (h c).index.toNat pfd2 } := by
  have hinv0 := hinv
  obtain ⟨hnd, hreg, hslot⟩ := hinv
  obtain ⟨_, hfdc, hidxc, pfdc, hslotc1, hfdslot⟩ := hreg _ _ hfind
  rw [hslotc] at hslotc1
  have hpp : pfd = pfdc := Option.some.inj hslotc1
  subst hpp
  have hlt : (h c).index.toNat < s.pollfds_.length := (List.getElem?_eq_some_iff.mp hslotc).1
  have hfd2c : pfd2.fd = (h c).fd ∨ pfd2.fd = -(h c).fd - 1 := by
    rcases hfd2 with h2 | h2
    · rw [h2]; exact hfdslot
    · exact Or.inr h2
  refine ⟨hnd, ?_, ?_⟩
  · intro k p hp
    obtain ⟨h1, h2, h3, pfdp, h4, h5⟩ := hreg k p hp
    refine ⟨h1, h2, h3, ?_⟩
    by_cases hsame : (h c).index.toNat = (h p).index.toNat
    · have hidx : (h p).index = (h c).index := by omega
      obtain ⟨hk, _⟩ := inv_same_slot h s hinv0 k (h c).fd p c hp hfind hidx
      subst hk
      refine ⟨pfd2, ?_, hfd2c⟩
      show (s.pollfds_.set (h c).index.toNat pfd2)[(h p).index.toNat]? = some pfd2
      rw [← hsame, List.getElem?_set, if_pos rfl, if_pos hlt]
    · refine ⟨pfdp, ?_, h5⟩
      show (s.pollfds_.set (h c).index.toNat pfd2)[(h p).index.toNat]? = some pfdp
      rw [List.getElem?_set_ne hsame]
      exact h4
  · intro j pfd1 hj
    change (s.pollfds_.set (h c).index.toNat pfd2)[j]? = some pfd1 at hj
    by_cases hsame : (h c).index.toNat = j
    · subst hsame
      rw [List.getElem?_set, if_pos rfl, if_pos hlt] at hj
      have hpp : pfd2 = pfd1 := Option.some.inj hj
      subst hpp
      refine ⟨c, ?_, ?_⟩
      · rw [decodeFd_of_slot (h c).fd pfd2.fd hfdc hfd2c]
        exact hfind
      · omega
    · rw [List.getElem?_set_ne hsame] at hj
      exact hslot j pfd1 hj

/-- `updateChannel` keeps the registration invariant whenever it returns, for a
channel whose fd is not negative. -/
theorem updateChannel_preserves_inv (h h1 : Heap) (s s1 : PollPoller) (c : ChannelPtr)
    (hinv : RegistrationInv h s) (hfd : 0 ≤ (h c).fd)
    (hstep : PollPoller.updateChannel h s c = some (h1, s1)) :
    RegistrationInv h1 s1 ∧ ∀ p, (h1 p).fd = (h p).fd := by
  unfold PollPoller.updateChannel at hstep
  by_cases hidx : (h c).index < 0
  · simp only [hidx, if_true] at hstep
    cases hnew : s.channels_.find (h c).fd with
    | some q => simp [hnew] at hstep
    | none =>
      simp only [hnew, Option.isSome_none, Bool.false_eq_true, if_false, Option.some.injEq,
        Prod.mk.injEq] at hstep
      obtain ⟨rfl, rfl⟩ := hstep
      refine ⟨updateChannel_new_preserves_inv h s c _ hinv hfd hidx hnew rfl, ?_⟩
      intro p
      by_cases hpc : p = c
      · subst hpc; simp
      · simp only [Function.update_noteq hpc]
  · simp only [hidx, if_false] at hstep
    cases hfind : s.channels_.find (h c).fd with
    | none => simp [hfind] at hstep
    | some q =>
      simp only [hfind] at hstep
      by_cases hq : q = c
      · subst hq
        simp only [ne_eq, not_true_eq_false, if_false] at hstep
        split at hstep
        · cases hstep
        · cases hslotc : s.pollfds_[(h q).index.toNat]? with
          | none => simp [hslotc] at hstep
          | some pfd =>
            simp only [hslotc] at hstep
            split at hstep
            · cases hstep
            · simp only [Option.some.injEq, Prod.mk.injEq] at hstep
              obtain ⟨rfl, rfl⟩ := hstep
              refine ⟨?_, fun _ => rfl⟩
              apply updateChannel_old_preserves_inv h s q pfd _ hinv hfind hslotc
              split
              · exact Or.inr rfl
              · exact Or.inl rfl
      · simp [hq] at hstep

theorem getElem?_dropLast_of_lt {α : Type} (l : List α) (j : Nat) (hj : j < l.length - 1) :
    l.dropLast[j]? = l[j]? := by
  rw [List.dropLast_eq_take, List.getElem?_take_of_lt hj]

theorem lt_of_getElem?_dropLast {α : Type} (l : List α) (j : Nat) (a : α)
    (hj : l.dropLast[j]? = some a) : j < l.length - 1 := by
  have := (List.getElem?_eq_some_iff.mp hj).1
  simpa using this

theorem getElem?_swap_dropLast {α : Type} (l : List α) (i j : Nat) (a b : α)
    (hi : i < l.length) (hj : j < l.length - 1) :
    (((l.set i a).set (l.length - 1) b).dropLast)[j]? = if i = j then some a else l[j]? := by
  have hne : l.length - 1 ≠ j := by omega
  rw [getElem?_dropLast_of_lt _ _ (by simpa using hj), List.getElem?_set_ne hne,
    List.getElem?_set]
  simp [hi]

theorem removeChannel_tail_preserves_inv (h : Heap) (s : PollPoller) (c : ChannelPtr)
    (hinv : RegistrationInv h s) (hfind : s.channels_.find (h c).fd = some c)
    (hlast : (h c).index.toNat = s.pollfds_.length - 1) :
    RegistrationInv h
      { pollfds_ := s.pollfds_.dropLast, channels_ := s.channels_.erase (h c).fd } := by
  have hinv0 := hinv
  obtain ⟨hnd, hreg, hslot⟩ := hinv
  obtain ⟨_, _, hidxc, pfdc, hslotc, _⟩ := hreg _ _ hfind
  refine ⟨nodup_keys_erase _ _ hnd, ?_, ?_⟩
  · intro k p hp
    have hk : k ≠ (h c).fd := by
      intro hk
      rw [hk, find_erase_same] at hp
      cases hp
    rw [find_erase_ne _ _ _ hk] at hp
    obtain ⟨h1, h2, h3, pfdp, h4, h5⟩ := hreg k p hp
    refine ⟨h1, h2, h3, pfdp, ?_, h5⟩
    have hne : (h p).index ≠ (h c).index := fun heq =>
      hk (inv_same_slot h s hinv0 k (h c).fd p c hp hfind heq).1
    have hlt : (h p).index.toNat < s.pollfds_.length := (List.getElem?_eq_some_iff.mp h4).1
    show s.pollfds_.dropLast[(h p).index.toNat]? = some pfdp
    rw [getElem?_dropLast_of_lt _ _ (by omega)]
    exact h4
  · intro j pfd hj
    change s.pollfds_.dropLast[j]? = some pfd at hj
    have hjlt := lt_of_getElem?_dropLast _ _ _ hj
    rw [getElem?_dropLast_of_lt _ _ hjlt] at hj
    obtain ⟨p, hp, hpi⟩ := hslot j pfd hj
    have hk : decodeFd pfd.fd ≠ (h c).fd := by
      intro hk
      rw [hk, hfind] at hp
      have hpc : c = p := Option.some.inj hp
      subst hpc
      omega
    exact ⟨p, by rw [find_erase_ne _ _ _ hk]; exact hp, hpi⟩

theorem removeChannel_swap_preserves_inv (h : Heap) (s : PollPoller) (c q : ChannelPtr)
    (pfd back : PollFd) (hinv : RegistrationInv h s)
    (hfind : s.channels_.find (h c).fd = some c)
    (hback : s.pollfds_.getLast? = some back)
    (hq : (s.channels_.erase (h c).fd).find (decodeFd back.fd) = some q) :
    RegistrationInv (Function.update h q { h q with index := (h c).index })
      { pollfds_ := ((s.pollfds_.set (h c).index.toNat back).set (s.pollfds_.length - 1)
          pfd).dropLast,
        channels_ := s.channels_.erase (h c).fd } := by
  have hinv0 := hinv
  obtain ⟨hnd, hreg, hslot⟩ := hinv
  obtain ⟨_, hfdc, hidxc, pfdc, hslotc, hfdslotc⟩ := hreg _ _ hfind
  have hltc : (h c).index.toNat < s.pollfds_.length := (List.getElem?_eq_some_iff.mp hslotc).1
  rw [List.getLast?_eq_getElem?] at hback
  have hkq : decodeFd back.fd ≠ (h c).fd := by
    intro hk
    rw [hk, find_erase_same] at hq
    cases hq
  rw [find_erase_ne _ _ _ hkq] at hq
  obtain ⟨q1, hq1, hq1i⟩ := hslot _ _ hback
  rw [hq] at hq1
  have hqq : q = q1 := Option.some.inj hq1
  subst hqq
  obtain ⟨hqfd, hqk, _, pfdq, hslotq, hfdslotq⟩ := hreg _ _ hq
  have hqslot : pfdq = back := by
    rw [hq1i] at hslotq
    simp only [Int.toNat_ofNat] at hslotq
    rw [hback] at hslotq
    exact (Option.some.inj hslotq).symm
  subst hqslot
  refine ⟨nodup_keys_erase _ _ hnd, ?_, ?_⟩
  · intro k p hp
    have hk : k ≠ (h c).fd := by
      intro hk
      rw [hk, find_erase_same] at hp
      cases hp
    rw [find_erase_ne _ _ _ hk] at hp
    obtain ⟨h1, h2, h3, pfdp, h4, h5⟩ := hreg k p hp
    have hnec : (h p).index ≠ (h c).index := fun heq =>
      hk (inv_same_slot h s hinv0 k (h c).fd p c hp hfind heq).1
    have hlt : (h p).index.toNat < s.pollfds_.length := (List.getElem?_eq_some_iff.mp h4).1
    by_cases hpq : p = q
    · subst hpq
      have hkk : k = decodeFd pfdq.fd := by rw [← h1, hqfd]
      simp only [Function.update_same]
      refine ⟨h1, h2, hidxc, pfdq, ?_, hkk ▸ hfdslotq⟩
      show (((s.pollfds_.set (h c).index.toNat pfdq).set (s.pollfds_.length - 1)
        pfd).dropLast)[(h c).index.toNat]? = some pfdq
      rw [getElem?_swap_dropLast _ _ _ _ _ hltc (by omega), if_pos rfl]
    · simp only [Function.update_noteq hpq]
      have hneq : (h p).index ≠ (h q).index := fun heq =>
        hpq (inv_same_slot h s hinv0 k _ p q hp hq heq).2
      refine ⟨h1, h2, h3, pfdp, ?_, h5⟩
      show (((s.pollfds_.set (h c).index.toNat pfdq).set (s.pollfds_.length - 1)
        pfd).dropLast)[(h p).index.toNat]? = some pfdp
      rw [getElem?_swap_dropLast _ _ _ _ _ hltc (by omega), if_neg (by omega)]
      exact h4
  · intro j pfd1 hj
    change (((s.pollfds_.set (h c).index.toNat pfdq).set (s.pollfds_.length - 1)
      pfd).dropLast)[j]? = some pfd1 at hj
    have hjlt : j < s.pollfds_.length - 1 := by
      have := lt_of_getElem?_dropLast _ _ _ hj
      simpa using this
    rw [getElem?_swap_dropLast _ _ _ _ _ hltc hjlt] at hj
    by_cases hij : (h c).index.toNat = j
    · rw [if_pos hij] at hj
      have hpp : pfdq = pfd1 := Option.some.inj hj
      subst hpp
      refine ⟨q, by rw [find_erase_ne _ _ _ hkq]; exact hq, ?_⟩
      simp only [Function.update_same]
      omega
    · rw [if_neg hij] at hj
      obtain ⟨p, hp, hpi⟩ := hslot j pfd1 hj
      have hk : decodeFd pfd1.fd ≠ (h c).fd := by
        intro hk
        rw [hk, hfind] at hp
        have hpc : c = p := Option.some.inj hp
        subst hpc
        omega
      have hpq : p ≠ q := by
        intro hpq
        subst hpq
        omega
      exact ⟨p, by rw [find_erase_ne _ _ _ hk]; exact hp,
        by simp only [Function.update_noteq hpq]; exact hpi⟩

/-- `removeChannel` keeps the registration invariant whenever it returns; the
removed channel is out of the map, and its `index` is left as it was. -/
theorem removeChannel_preserves_inv (h h1 : Heap) (s s1 : PollPoller) (c : ChannelPtr)
    (hinv : RegistrationInv h s)
    (hstep : PollPoller.removeChannel h s c = some (h1, s1)) :
    RegistrationInv h1 s1 ∧ s1.channels_.find (h c).fd = none ∧
      (h1 c).index = (h c).index ∧ ∀ p, (h1 p).fd = (h p).fd := by
  unfold PollPoller.removeChannel at hstep
  cases hfind : s.channels_.find (h c).fd with
  | none => simp [hfind] at hstep
  | some q0 =>
    simp only [hfind] at hstep
    by_cases hq0 : q0 = c
    · subst hq0
      simp only [ne_eq, not_true_eq_false, if_false] at hstep
      split at hstep
      · cases hstep
      · split at hstep
        · cases hstep
        · cases hslotc : s.pollfds_[(h q0).index.toNat]? with
          | none => simp [hslotc] at hstep
          | some pfd =>
            simp only [hslotc] at hstep
            split at hstep
            · cases hstep
            · split at hstep
              · cases hstep
              · split at hstep
                · next hlast =>
                  simp only [Option.some.injEq, Prod.mk.injEq] at hstep
                  obtain ⟨rfl, rfl⟩ := hstep
                  exact ⟨removeChannel_tail_preserves_inv h s q0 hinv hfind hlast,
                    find_erase_same _ _, rfl, fun _ => rfl⟩
                · cases hback : s.pollfds_.getLast? with
                  | none => simp [hback] at hstep
                  | some back =>
                    simp only [hback] at hstep
                    cases hq : (s.channels_.erase (h q0).fd).find
                        (if back.fd < 0 then -back.fd - 1 else back.fd) with
                    | none => simp [hq] at hstep
                    | some q =>
                      simp only [hq, Option.some.injEq, Prod.mk.injEq] at hstep
                      obtain ⟨rfl, rfl⟩ := hstep
                      have hqc : q ≠ q0 := by
                        intro hqc
                        subst hqc
                        have hk : (if back.fd < 0 then -back.fd - 1 else back.fd) ≠ (h q).fd := by
                          intro hk
                          rw [hk, find_erase_same] at hq
                          cases hq
                        rw [find_erase_ne _ _ _ hk] at hq
                        exact hk ((hinv.2.1 _ _ hq).1).symm
                      refine ⟨removeChannel_swap_preserves_inv h s q0 q pfd back hinv hfind
                        hback hq, find_erase_same _ _, ?_, ?_⟩
                      · simp only [Function.update_noteq hqc.symm]
                      · intro p
                        by_cases hpq : p = q
                        · subst hpq; simp
                        · simp only [Function.update_noteq hpq]
    · simp [hq0] at hstep

/-- Every state a sequence of calls reaches from a state that satisfies the
registration invariant, with no negative channel fd, satisfies it too. -/
theorem run_preserves_inv (ops : List PollerOp) :
    ∀ (st st1 : Heap × PollPoller), (∀ p, 0 ≤ (st.1 p).fd) → RegistrationInv st.1 st.2 →
      PollPoller.run ops st = some st1 →
      RegistrationInv st1.1 st1.2 ∧ ∀ p, 0 ≤ (st1.1 p).fd := by
  induction ops with
  | nil =>
    intro st st1 hfd hinv hrun
    simp only [PollPoller.run, Option.some.injEq] at hrun
    subst hrun
    exact ⟨hinv, hfd⟩
  | cons op rest ih =>
    intro st st1 hfd hinv hrun
    simp only [PollPoller.run] at hrun
    cases hstep : PollPoller.step st op with
    | none => simp [hstep] at hrun
    | some st2 =>
      simp only [hstep, Option.some_bind] at hrun
      obtain ⟨h2, s2⟩ := st2
      obtain ⟨h, s⟩ := st
      cases op with
      | update c =>
        simp only [PollPoller.step] at hstep
        obtain ⟨hinv2, hfdeq⟩ := updateChannel_preserves_inv h h2 s s2 c hinv (hfd c) hstep
        have hfd2 : ∀ p, 0 ≤ (h2 p).fd := fun p => by rw [hfdeq p]; exact hfd p
        exact ih (h2, s2) st1 hfd2 hinv2 hrun
      | remove c =>
        simp only [PollPoller.step] at hstep
        obtain ⟨hinv2, _, _, hfdeq⟩ := removeChannel_preserves_inv h h2 s s2 c hinv hstep
        exact ih (h2, s2) st1 (fun p => by rw [hfdeq p]; exact hfd p) hinv2 hrun
      | setEvents c e =>
        simp only [PollPoller.step, Option.some.injEq, Prod.mk.injEq] at hstep
        obtain ⟨rfl, rfl⟩ := hstep
        have hsame : ∀ p, (setEvents h c e p).fd = (h p).fd ∧
            (setEvents h c e p).index = (h p).index := by
          intro p
          by_cases hpc : p = c
          · subst hpc; simp [setEvents]
          · simp [setEvents, Function.update_noteq hpc]
        have hinv2 : RegistrationInv (setEvents h c e) s := by
          obtain ⟨i0, i1, i2⟩ := hinv
          refine ⟨i0, ?_, ?_⟩
          · intro k p hp
            rw [(hsame p).1, (hsame p).2]
            exact i1 k p hp
          · intro j pfd hj
            obtain ⟨p, hp, hpi⟩ := i2 j pfd hj
            exact ⟨p, hp, by rw [(hsame p).2]; exact hpi⟩
        exact ih (setEvents h c e, s) st1 (fun p => by rw [(hsame p).1]; exact hfd p) hinv2 hrun

theorem empty_inv (h : Heap) : RegistrationInv h PollPoller.empty := by
  refine ⟨by simp [PollPoller.empty], ?_, ?_⟩
  · intro k p hp
    simp [PollPoller.empty, ChannelMap.find] at hp
  · intro j pfd hj
    simp [PollPoller.empty] at hj

/-! ## What `updateChannel` and `removeChannel` do on each branch -/

theorem eraseCount_assign (m : ChannelMap) (k : Int) (p : ChannelPtr)
    (hnew : m.find k = none) : (m.assign k p).eraseCount k = 1 := by
  rw [find_eq_none_iff] at hnew
  induction m with
  | nil => simp [ChannelMap.assign, ChannelMap.eraseCount]
  | cons e rest ih =>
    obtain ⟨k1, q⟩ := e
    simp only [List.map_cons, List.mem_cons, not_or] at hnew
    have hk1 : ¬ k1 = k := fun h => hnew.1 h.symm
    have hrest : rest.filter (fun e => decide (e.1 = k)) = [] := by
      rw [List.filter_eq_nil_iff]
      intro e he
      simp only [decide_eq_true_eq]
      intro hek
      exact hnew.2 (hek ▸ List.mem_map_of_mem Prod.fst he)
    simp only [ChannelMap.assign]
    split
    · simp [ChannelMap.eraseCount, List.filter_cons, hk1, hrest]
    · split
      · next h1 h2 => exact absurd h2 hnew.1
      · have := ih hnew.2
        simp only [ChannelMap.eraseCount] at this ⊢
        simp [List.filter_cons, hk1, this]

/-- For a new channel `updateChannel` appends a slot that stores the fd itself,
whatever the interest mask is. -/
theorem updateChannel_new (h : Heap) (s : PollPoller) (c : ChannelPtr)
    (hidx : (h c).index < 0) (hnew : s.channels_.find (h c).fd = none) :
    PollPoller.updateChannel h s c = some
      (Function.update h c { h c with index := (s.pollfds_.length : Int) },
       { pollfds_ := s.pollfds_ ++
           [{ fd := (h c).fd, events := toShort (h c).events, revents := 0 }],
         channels_ := s.channels_.assign (h c).fd c }) := by
  simp [PollPoller.updateChannel, hidx, hnew]

/-- For a registered channel `updateChannel` rewrites the slot at `index`: new
interest mask, `revents = 0`, and the fd replaced by `-fd - 1` when the mask is
NONE and left as it is stored otherwise. -/
theorem updateChannel_registered (h : Heap) (s : PollPoller) (c : ChannelPtr) (pfd : PollFd)
    (hidx : 0 ≤ (h c).index) (hfind : s.channels_.find (h c).fd = some c)
    (hslot : s.pollfds_[(h c).index.toNat]? = some pfd)
    (hfd : pfd.fd = (h c).fd ∨ pfd.fd = -(h c).fd - 1) :
    PollPoller.updateChannel h s c = some
      (h, { s with pollfds_ := (s.pollfds_.set (h c).index.toNat
              { fd := if (h c).events = kNoneEvent then -(h c).fd - 1 else pfd.fd,
                events := toShort (h c).events, revents := 0 }) }) := by
  have hlt : (h c).index.toNat < s.pollfds_.length := (List.getElem?_eq_some_iff.mp hslot).1
  have hrange : 0 ≤ (h c).index ∧ (h c).index < (s.pollfds_.length : Int) := ⟨hidx, by omega⟩
  have hnot : ¬ (h c).index < 0 := by omega
  simp only [PollPoller.updateChannel, hnot, if_false, hfind, ne_eq, not_true_eq_false,
    hrange, and_self, hslot, hfd, Channel.isNoneEvent]
  by_cases he : (h c).events = kNoneEvent <;> simp [he]

/-- The round trip that the code supports: a new channel is registered, then
disabled through `updateChannel` with `events = NONE`, then removed; every
assertion passes and `pollfds_` and `channels_` are what they were. -/
theorem register_disable_remove_restores (h : Heap) (s : PollPoller) (c : ChannelPtr)
    (hidx : (h c).index < 0) (hnew : s.channels_.find (h c).fd = none) :
    (PollPoller.run [.update c, .setEvents c kNoneEvent, .update c, .remove c] (h, s)).map
      Prod.snd = some s := by
  have h1 := updateChannel_new h s c hidx hnew
  generalize hpfd : ({ fd := (h c).fd, events := toShort (h c).events, revents := 0 } : PollFd)
    = pfd at h1
  have hpfdfd : pfd.fd = (h c).fd := by rw [← hpfd]
  generalize hh2 : setEvents (Function.update h c { h c with index := (s.pollfds_.length : Int) })
    c kNoneEvent = h2
  have hc2 : h2 c = { fd := (h c).fd, events := kNoneEvent, revents := (h c).revents,
                      index := (s.pollfds_.length : Int) } := by
    rw [← hh2]; simp [setEvents]
  have hslot : (s.pollfds_ ++ [pfd])[(h2 c).index.toNat]? = some pfd := by
    rw [hc2]; simp
  have h3 := updateChannel_registered h2
    { pollfds_ := s.pollfds_ ++ [pfd], channels_ := s.channels_.assign (h c).fd c } c pfd
    (by rw [hc2]; simp) (by rw [hc2]; exact find_assign_same _ _ _) hslot
    (by rw [hc2]; exact Or.inl hpfdfd)
  have hset : (s.pollfds_ ++ [pfd]).set (h2 c).index.toNat
      { fd := if (h2 c).events = kNoneEvent then -(h2 c).fd - 1 else pfd.fd,
        events := toShort (h2 c).events, revents := 0 }
      = s.pollfds_ ++ [{ fd := -(h c).fd - 1, events := 0, revents := 0 }] := by
    rw [hc2]
    simp [kNoneEvent, toShort]
  rw [hset] at h3
  have h4 : PollPoller.removeChannel h2
      { pollfds_ := s.pollfds_ ++ [{ fd := -(h c).fd - 1, events := 0, revents := 0 }],
        channels_ := s.channels_.assign (h c).fd c } c = some (h2, s) := by
    have hcount := eraseCount_assign s.channels_ (h c).fd c hnew
    have herase := erase_assign_of_find_none s.channels_ (h c).fd c hnew
    simp [PollPoller.removeChannel, hc2, find_assign_same, Channel.isNoneEvent, kNoneEvent,
      hcount, herase]
  simp only [PollPoller.run, PollPoller.step, h1, Option.some_bind, hh2, h3, h4, Option.map_some']

/-! ## "Exactly once" from the registration invariant -/

theorem find_eq_some_iff_mem (m : ChannelMap) (hnd : (m.map Prod.fst).Nodup) (k : Int)
    (p : ChannelPtr) : m.find k = some p ↔ (k, p) ∈ m := by
  induction m with
  | nil => simp [ChannelMap.find]
  | cons e rest ih =>
    obtain ⟨k1, q⟩ := e
    simp only [List.map_cons, List.nodup_cons] at hnd
    by_cases hk : k = k1
    · subst hk
      simp only [ChannelMap.find, if_true, Option.some.injEq, List.mem_cons, Prod.mk.injEq,
        true_and]
      constructor
      · intro h; exact Or.inl h.symm
      · rintro (h | h)
        · exact h.symm
        · exact absurd (List.mem_map_of_mem Prod.fst h) hnd.1
    · simp only [ChannelMap.find, hk, if_false, List.mem_cons, Prod.mk.injEq, false_and,
        false_or]
      exact ih hnd.2

theorem filter_value_eq_singleton (m : ChannelMap) (hnd : (m.map Prod.fst).Nodup) (k0 : Int)
    (p : ChannelPtr) (hmem : (k0, p) ∈ m) (hkey : ∀ e ∈ m, e.2 = p → e.1 = k0) :
    m.filter (fun e => decide (e.2 = p)) = [(k0, p)] := by
  induction m with
  | nil => simp at hmem
  | cons e rest ih =>
    obtain ⟨k1, q⟩ := e
    simp only [List.map_cons, List.nodup_cons] at hnd
    by_cases hq : q = p
    · subst hq
      have hk1 : k1 = k0 := hkey (k1, q) (by simp) rfl
      subst hk1
      have hrest : rest.filter (fun e => decide (e.2 = q)) = [] := by
        rw [List.filter_eq_nil_iff]
        intro e he
        simp only [decide_eq_true_eq]
        intro heq
        have := hkey e (List.mem_cons_of_mem _ he) heq
        exact hnd.1 (this ▸ List.mem_map_of_mem Prod.fst he)
      simp [List.filter_cons, hrest]
    · have hmem1 : (k0, p) ∈ rest := by
        rcases List.mem_cons.mp hmem with h | h
        · exact absurd (Prod.mk.inj h).2.symm hq
        · exact h
      have := ih hnd.2 hmem1 (fun e he => hkey e (List.mem_cons_of_mem _ he))
      simp [List.filter_cons, hq, this]

/-- Under the registration invariant a channel that the map holds has exactly
one map entry, the one under its fd, and exactly one slot, the one at its
`index`: no other slot stores its fd or the marked form of its fd. -/
theorem registered_exactly_once (h : Heap) (s : PollPoller) (hinv : RegistrationInv h s)
    (k : Int) (p : ChannelPtr) (hreg : s.channels_.find k = some p) :
    s.channels_.filter (fun e => decide (e.2 = p)) = [((h p).fd, p)] ∧
    0 ≤ (h p).index ∧
    (∃ pfd, s.pollfds_[(h p).index.toNat]? = some pfd ∧
      (pfd.fd = (h p).fd ∨ pfd.fd = -(h p).fd - 1)) ∧
    (∀ (j : Nat) (pfd : PollFd), s.pollfds_[j]? = some pfd →
      (pfd.fd = (h p).fd ∨ pfd.fd = -(h p).fd - 1) → (h p).index = (j : Int)) := by
  obtain ⟨hnd, hmap, hslot⟩ := hinv
  obtain ⟨hfd, hk, hidx, pfd, hpfd, hpfdfd⟩ := hmap k p hreg
  subst hfd
  refine ⟨?_, hidx, ⟨pfd, hpfd, hpfdfd⟩, ?_⟩
  · apply filter_value_eq_singleton _ hnd
    · exact (find_eq_some_iff_mem _ hnd _ _).mp hreg
    · intro e he hep
      have hfind : s.channels_.find e.1 = some p := by
        rw [find_eq_some_iff_mem _ hnd]
        rw [← hep]
        exact he
      exact ((hmap _ _ hfind).1).symm
  · intro j pfd1 hj hfd1
    obtain ⟨q, hq, hqi⟩ := hslot j pfd1 hj
    rw [decodeFd_of_slot _ _ hk hfd1, hreg] at hq
    rw [Option.some.inj hq]
    exact hqi

end mymuduo
